import Mathlib

/-!
# Wordle game (game.h, game.c, main.c): embedding and verified properties

A C `char` is a byte, modelled as a `Nat`. A `char *` is modelled by the list
of bytes stored at the address; every byte past the end of the list reads as
the terminator `0`, so `strlen`, `strncmp` and `strchr` below are the C
functions on NUL-terminated buffers. Fixed arrays of five cells
(`matched[5]`, `results[5]`) are functions on `Fin 5`. The C `int` counter
`rounds` holds a 32-bit two's complement value: the results of `rounds++` and
of `5 - rounds` are reduced by `toInt32`, so the counter wraps from `INT_MAX`
to `INT_MIN` as it does on the usual targets. Standard input and output are
byte streams.
-/

namespace Wordle

/-! ## game.h -/

/-- The enum `ValidationStatus` of game.h. -/
inductive ValidationStatus where
  | VALID_OK
  | VALID_BAD_INPUT
  | VALID_NOT_FOUND
  deriving DecidableEq, Repr

/-- The enum `CharComparison` of game.h. -/
inductive CharComparison where
  | R_GREEN
  | R_YELLOW
  | R_RED
  deriving DecidableEq, Repr

open ValidationStatus CharComparison

/-- The constant `WORDS_CAPACITY` of game.h. -/
def WORDS_CAPACITY : Nat := 2272

/-- Bytes of an ASCII string literal. -/
def ascii (s : String) : List Nat := s.toList.map Char.toNat

/-- The escape sequence `CLR_GREEN` of game.h (`\e` is byte 27). -/
def CLR_GREEN : List Nat := 27 :: ascii "[38;2;255;255;255;1m" ++ 27 :: ascii "[48;2;106;170;100;1m"

/-- The escape sequence `CLR_YELLOW` of game.h. -/
def CLR_YELLOW : List Nat := 27 :: ascii "[38;2;255;255;255;1m" ++ 27 :: ascii "[48;2;201;180;88;1m"

/-- The escape sequence `CLR_RED` of game.h. -/
def CLR_RED : List Nat := 27 :: ascii "[38;2;255;255;255;1m" ++ 27 :: ascii "[48;2;220;20;60;1m"

/-- The escape sequence `CLR_STOP` of game.h. -/
def CLR_STOP : List Nat := 27 :: ascii "[0;39m"

/-! ## The C library functions the program calls -/

/-- The value a C `int` takes for the arithmetic result `x`: 32-bit two's
complement wrap-around, in the range `INT_MIN = -2147483648` to
`INT_MAX = 2147483647`. -/
def toInt32 (x : Int) : Int := (x + 2147483648) % 4294967296 - 2147483648

/-- Read `buf[i]`: the byte at offset `i`, the terminator past the stored bytes. -/
def byteAt (buf : List Nat) (i : Nat) : Nat := buf.getD i 0

/-- C `strlen`: the number of bytes before the first NUL. -/
def strlen : List Nat → Nat
  | [] => 0
  | c :: cs => if c = 0 then 0 else strlen cs + 1

/-- C `strncmp(a, b, n)`: compares at most `n` bytes and stops after a NUL;
the result is `0` exactly when the compared parts agree. -/
def strncmp (a b : List Nat) : Nat → Int
  | 0 => 0
  | n + 1 =>
    if byteAt a 0 ≠ byteAt b 0 then (byteAt a 0 : Int) - (byteAt b 0 : Int)
    else if byteAt a 0 = 0 then 0
    else strncmp a.tail b.tail n

/-- C `strchr(str, c)`: the offset of the first occurrence of `c` in the
string, the terminator included; `none` is the null pointer. -/
def strchr : List Nat → Nat → Option Nat
  | [], c => if c = 0 then some 0 else none
  | x :: xs, c =>
    if x = c then some 0
    else if x = 0 then none
    else (strchr xs c).map (· + 1)

/-- C `strncpy(dst, src, n)` into a destination of exactly `n` bytes: the
first `n` bytes of the string `src`, padded with NUL after its end. -/
def strncpy (src : List Nat) : Nat → List Nat
  | 0 => []
  | n + 1 =>
    if byteAt src 0 = 0 then List.replicate (n + 1) 0
    else byteAt src 0 :: strncpy src.tail n

/-- The read loop of C `fgets`: takes at most `n` bytes from the stream and
stops after a newline; returns the bytes stored and the rest of the stream. -/
def fgetsLoop : Nat → List Nat → List Nat × List Nat
  | 0, s => ([], s)
  | _ + 1, [] => ([], [])
  | n + 1, b :: s =>
    if b = 10 then ([b], s)
    else ((fgetsLoop n s).1.cons b, (fgetsLoop n s).2)

/-- C `fgets(buf, size, stream)`: `none` (the null pointer) at end of file,
otherwise the buffer contents (at most `size - 1` bytes) and the rest of the
stream. -/
def fgets (size : Nat) (stream : List Nat) : Option (List Nat × List Nat) :=
  if stream = [] then none else some (fgetsLoop (size - 1) stream)

/-! ## game.c: the globals and the standard streams -/

/-- The all-zero row of a `static` table that has not been written. -/
def emptyRow : List Nat := List.replicate 5 0

/-- The file-scope variables of game.c together with the two standard
streams. `dictionary` is the table `char dictionary[WORDS_CAPACITY][5]`, one
list of 5 bytes per row; `rounds` is the `int` counter, a value in the range
of `toInt32`; `stdin` holds the bytes not yet read, `stdout` the bytes written
so far. -/
structure World where
  dictionary : List (List Nat)
  matched : Fin 5 → Bool
  rounds : Int
  active : Bool
  success : Bool
  stdin : List Nat
  stdout : List Nat

/-- The state at program start: the static initialisers of game.c (tables
zeroed, `rounds = 0`, `active = true`, `success = false`), nothing written. -/
def World.start (input : List Nat) : World :=
  { dictionary := List.replicate WORDS_CAPACITY emptyRow
    matched := fun _ => false
    rounds := 0
    active := true
    success := false
    stdin := input
    stdout := [] }

/-- Row `dictionary[i]` of the table. -/
def row (dictionary : List (List Nat)) (i : Nat) : List Nat := dictionary.getD i emptyRow

/-- C `printf` of already formatted bytes. -/
def World.printf (w : World) (bytes : List Nat) : World :=
  { w with stdout := w.stdout ++ bytes }

/-! ## game.c: external functions -/

/-- The `while (fgets(line, sizeof(line), fp))` loop of `load_dictionary`,
from file position `fp` with `index` words stored. Every pass consumes at
least one byte, so `fuel` bounds the passes by the bytes left. -/
def load_loop : Nat → List Nat → List (List Nat) → Nat → List (List Nat) × Nat
  | 0, _, dict, index => (dict, index)
  | fuel + 1, fp, dict, index =>
    match fgets 32 fp with
    | none => (dict, index)
    | some (line, rest) =>
      let len := strlen line
      let strip : Bool := decide (len > 0) && decide (byteAt line (len - 1) = 10)
      let line := if strip then line.set (len - 1) 0 else line
      let len := if strip then len - 1 else len
      if len = 5 then
        let dict := dict.set index (strncpy line 5)
        let index := index + 1
        if index ≥ WORDS_CAPACITY then (dict, index)
        else load_loop fuel rest dict index
      else load_loop fuel rest dict index

/-- The function `load_dictionary` of game.c. The file is `none` when `fopen`
fails (result `-1`), otherwise its bytes; the result is the returned count
and the state with the table filled. -/
def load_dictionary (file : Option (List Nat)) (w : World) : Int × World :=
  match file with
  | none => (-1, w)
  | some fp =>
    let r := load_loop fp.length fp w.dictionary 0
    ((r.2 : Int), { w with dictionary := r.1 })

/-- The function `select_word` of game.c, `r` being the value `rand()`
returns: the 5 bytes of row `r % count` (C remainder, truncating). -/
def select_word (count : Int) (r : Nat) (w : World) : List Nat :=
  strncpy (row w.dictionary (Int.tmod (r : Int) count).toNat) 5

/-- The function `read_input` of game.c: one `fgets` of at most 63 bytes,
the trailing newline overwritten by NUL. `none` is `exit(EXIT_FAILURE)` at
end of input (`malloc` is taken to succeed); otherwise the buffer and the
rest of the stream. -/
def read_input (stdin : List Nat) : Option (List Nat × List Nat) :=
  match fgets 64 stdin with
  | none => none
  | some (buf, rest) =>
    let len := strlen buf
    if len > 0 ∧ byteAt buf (len - 1) = 10 then some (buf.set (len - 1) 0, rest)
    else some (buf, rest)

/-- The function `check_validity` of game.c, reading the global table
`dictionary`; `List.any` stops at the first matching row as the `break` does. -/
def check_validity (word : List Nat) (dictionary : List (List Nat)) : ValidationStatus :=
  if strlen word ≠ 5 then VALID_BAD_INPUT
  else
    let found := (List.range WORDS_CAPACITY).any (fun i => strncmp (row dictionary i) word 5 == 0)
    if found then VALID_OK else VALID_NOT_FOUND

/-- The function `find_in_string` of game.c. -/
def find_in_string (c : Nat) (str : List Nat) : Bool := (strchr str c).isSome

/-- The function `compare_char` of game.c: the colour and the state with
`matched[idx]` set on an exact match. -/
def compare_char (guess : Nat) (idx : Fin 5) (secret : List Nat) (w : World) :
    CharComparison × World :=
  if guess = byteAt secret idx then
    (R_GREEN, { w with matched := Function.update w.matched idx true })
  else if find_in_string guess secret then (R_YELLOW, w)
  else (R_RED, w)

/-- One pass `results[i] = compare_char(guess[i], i, secret)` of the loop of
`compare_guess`. -/
def compare_step (guess secret : List Nat)
    (acc : (Fin 5 → CharComparison) × World) (i : Fin 5) : (Fin 5 → CharComparison) × World :=
  (Function.update acc.1 i (compare_char (byteAt guess i) i secret acc.2).1,
   (compare_char (byteAt guess i) i secret acc.2).2)

/-- The function `compare_guess` of game.c. The `static` array `results`
starts zeroed (`R_GREEN` is 0) and all five cells are written. -/
def compare_guess (guess secret : List Nat) (w : World) : (Fin 5 → CharComparison) × World :=
  (List.finRange 5).foldl (compare_step guess secret) (fun _ => R_GREEN, w)

/-- The bytes `display_feedback` prints for one letter. -/
def feedback_cell (r : CharComparison) (c : Nat) : List Nat :=
  match r with
  | R_GREEN => CLR_GREEN ++ c :: CLR_STOP
  | R_YELLOW => CLR_YELLOW ++ c :: CLR_STOP
  | R_RED => CLR_RED ++ c :: CLR_STOP

/-- The function `display_feedback` of game.c. -/
def display_feedback (results : Fin 5 → CharComparison) (guess : List Nat) (w : World) : World :=
  ((List.finRange 5).foldl (fun (acc : World) i => acc.printf (feedback_cell (results i) (byteAt guess i))) w).printf
    (ascii "\n")

/-- The function `show_prompt` of game.c: a letter of the secret or `-`
(byte 45) per position, then the guesses left. -/
def show_prompt (secret : List Nat) (w : World) : World :=
  ((List.finRange 5).foldl
      (fun (acc : World) i => if acc.matched i then acc.printf [byteAt secret i] else acc.printf (ascii "-")) w).printf
    (ascii "\n\n" ++ ascii (toString (toInt32 (5 - w.rounds))) ++ ascii "> ")

/-- The counting loop of `guess_cycle`: how many cells of `matched` are set. -/
def correct_count (w : World) : Nat :=
  (List.finRange 5).foldl (fun n i => if w.matched i then n + 1 else n) 0

/-- The function `guess_cycle` of game.c. `none` is the process exit inside
`read_input`. -/
def guess_cycle (secret : List Nat) (w : World) : Option World :=
  if !w.active then some w
  else
    let w := show_prompt secret w
    match read_input w.stdin with
    | none => none
    | some (guess, rest) =>
      let w := { w with stdin := rest }
      match check_validity guess w.dictionary with
      | VALID_BAD_INPUT =>
        some { w.printf (ascii "Bad input (must be 5 letters)\n") with rounds := toInt32 (w.rounds + 1) }
      | VALID_NOT_FOUND =>
        some { w.printf (ascii "No such word in dictionary\n") with rounds := toInt32 (w.rounds + 1) }
      | VALID_OK =>
        let res := compare_guess guess secret w
        let w := display_feedback res.1 guess res.2
        if correct_count w = 5 then some { w with success := true, active := false }
        else
          let w := { w with rounds := toInt32 (w.rounds + 1) }
          if w.rounds ≥ 5 then some { w with success := false, active := false }
          else some w

/-- The function `game_active` of game.c. -/
def game_active (w : World) : Bool := w.active

/-- The function `game_success` of game.c. -/
def game_success (w : World) : Bool := w.success

/-! ## Sessions: the driver loop of main.c seen from outside -/

/-- The string a buffer holds: its bytes before the first NUL. -/
def cstr (buf : List Nat) : List Nat := buf.takeWhile (· ≠ 0)

/-- The buffers the next `n` calls of `read_input` return on a stream, and
what is left of the stream (`none` if the input ends before). -/
def read_inputs : Nat → List Nat → Option (List (List Nat) × List Nat)
  | 0, s => some ([], s)
  | n + 1, s =>
    match read_input s with
    | none => none
    | some (g, rest) =>
      match read_inputs n rest with
      | none => none
      | some (gs, r) => some (g :: gs, r)

/-- The state after `n` calls `guess_cycle(secret)` in a row (`none` if the
process exits on the way). -/
def guess_cycles (secret : List Nat) : Nat → World → Option World
  | 0, w => some w
  | n + 1, w => (guess_cycle secret w).bind (guess_cycles secret n)

/-- The guesses that `n` calls `guess_cycle(secret)` in a row read, oldest
first; a call in an ended session reads nothing. -/
def guesses_read (secret : List Nat) : Nat → World → List (List Nat)
  | 0, _ => []
  | n + 1, w =>
    match guess_cycle secret w with
    | none => []
    | some w' =>
      (if w.active then ((read_input w.stdin).map Prod.fst).toList else [])
        ++ guesses_read secret n w'

/-- The table after loading the words `words` (5 bytes each) into the zeroed
table: the words in the first rows, the other rows untouched. -/
def tableOf (words : List (List Nat)) : List (List Nat) :=
  words ++ List.replicate (WORDS_CAPACITY - words.length) emptyRow

/-- A session at its start, with the table holding `words` and `input` waiting
on standard input. -/
def session (words : List (List Nat)) (input : List Nat) : World :=
  { World.start input with dictionary := tableOf words }

/-- The shape of the table while `load_dictionary` runs with `index` words
stored: 2272 rows, the first `index` rows hold 5 non-NUL bytes each, all
other rows are still zero. -/
def Loaded (dictionary : List (List Nat)) (index : Nat) : Prop :=
  dictionary.length = WORDS_CAPACITY ∧ index ≤ WORDS_CAPACITY ∧
  (∀ i, i < index → (row dictionary i).length = 5 ∧ strlen (row dictionary i) = 5) ∧
  (∀ i, index ≤ i → row dictionary i = emptyRow)

/-- A small word list used in the worked examples. -/
def demoWords : List (List Nat) :=
  [ascii "CRANE", ascii "CRAZY", ascii "PLANE", ascii "TRACE", ascii "BLIMP"]

/-- A word file whose 5-letter lines are `demoWords`. -/
def demoFile : List Nat := ascii "CRANE\nCRAZY\nPLANE\nwordle\nTRACE\nBLIMP\nabc\n"

/-- Reference definition following the specification's words: the lines of a
text source with the line terminator removed. A line ends at a newline or at
the end of the text; the empty text has no line. -/
def spec_lines : List Nat → List (List Nat)
  | [] => []
  | b :: s =>
    if b = 10 then [] :: spec_lines s
    else
      match spec_lines s with
      | [] => [[b]]
      | l :: ls => (b :: l) :: ls

/-- Reference definition following the specification's words: what the
dictionary loader is to retain, the lines of exactly 5 characters, in file
order, up to the capacity. -/
def spec_retained (file : List Nat) : List (List Nat) :=
  ((spec_lines file).filter (fun l => l.length = 5)).take WORDS_CAPACITY

/-- A word file with one line of 36 characters: 31 times `a`, then `HELLO`. -/
def longLineFile : List Nat :=
  ascii "CRANE\n" ++ List.replicate 31 97 ++ ascii "HELLO\n" ++ ascii "PLANE\n"

/-- The status invariant of a session: won means ended with the mask full,
lost means ended at the round limit with the mask not full, active means the
mask is not full. -/
def StatusInv (w : World) : Prop :=
  (w.success = true → w.active = false ∧ ∀ i, w.matched i = true) ∧
  (w.active = false → w.success = false → w.rounds ≥ 5 ∧ ¬ ∀ i, w.matched i = true) ∧
  (w.active = true → ¬ ∀ i, w.matched i = true)

/-! ## Lemmas on the C library functions -/

/-- Inside the `int` range nothing wraps. -/
theorem toInt32_of_range (x : Int) (hlo : -2147483648 ≤ x) (hhi : x ≤ 2147483647) :
    toInt32 x = x := by
  unfold toInt32
  omega

theorem byteAt_nil (i : Nat) : byteAt [] i = 0 := by simp [byteAt]

theorem byteAt_cons_zero (x : Nat) (xs : List Nat) : byteAt (x :: xs) 0 = x := by simp [byteAt]

theorem byteAt_cons_succ (x : Nat) (xs : List Nat) (i : Nat) :
    byteAt (x :: xs) (i + 1) = byteAt xs i := by simp [byteAt]

theorem byteAt_tail (s : List Nat) (i : Nat) : byteAt s.tail i = byteAt s (i + 1) := by
  cases s with
  | nil => simp [byteAt]
  | cons x xs => simp [byteAt]

theorem byteAt_ne_zero_of_lt_strlen (s : List Nat) (i : Nat) (h : i < strlen s) :
    byteAt s i ≠ 0 := by
  induction s generalizing i with
  | nil => simp [strlen] at h
  | cons x xs ih =>
    unfold strlen at h
    split_ifs at h with hx
    · omega
    · cases i with
      | zero => simpa [byteAt_cons_zero] using hx
      | succ k =>
        rw [byteAt_cons_succ]
        exact ih k (by omega)

theorem byteAt_strlen (s : List Nat) : byteAt s (strlen s) = 0 := by
  induction s with
  | nil => simp [strlen, byteAt]
  | cons x xs ih =>
    unfold strlen
    split_ifs with hx
    · simp [byteAt_cons_zero, hx]
    · rw [byteAt_cons_succ]; exact ih

theorem strchr_isSome_iff (s : List Nat) (c : Nat) :
    (strchr s c).isSome = true ↔ ∃ j, j ≤ strlen s ∧ byteAt s j = c := by
  induction s with
  | nil =>
    unfold strchr
    constructor
    · intro h
      split_ifs at h with hc
      · exact ⟨0, by simp [strlen], by simp [byteAt, hc]⟩
      · simp at h
    · rintro ⟨j, _, hj⟩
      rw [byteAt_nil] at hj
      simp [hj.symm]
  | cons x xs ih =>
    unfold strchr
    by_cases hxc : x = c
    · simp only [hxc, if_true, Option.isSome_some, true_iff]
      exact ⟨0, Nat.zero_le _, by simp [byteAt]⟩
    · by_cases hx0 : x = 0
      · rw [if_neg hxc, if_pos hx0]
        constructor
        · intro h; simp at h
        · rintro ⟨j, hj, hb⟩
          have : strlen (x :: xs) = 0 := by simp [strlen, hx0]
          rw [this] at hj
          have hj0 : j = 0 := by omega
          subst hj0
          rw [byteAt_cons_zero] at hb
          exact absurd hb hxc
      · rw [if_neg hxc, if_neg hx0]
        have hm : (Option.map (· + 1) (strchr xs c)).isSome = (strchr xs c).isSome := by
          cases strchr xs c <;> rfl
        rw [hm, ih]
        have hl : strlen (x :: xs) = strlen xs + 1 := by simp [strlen, hx0]
        constructor
        · rintro ⟨j, hj, hb⟩
          exact ⟨j + 1, by omega, by rw [byteAt_cons_succ]; exact hb⟩
        · rintro ⟨j, hj, hb⟩
          cases j with
          | zero => rw [byteAt_cons_zero] at hb; exact absurd hb hxc
          | succ k =>
            rw [byteAt_cons_succ] at hb
            exact ⟨k, by omega, hb⟩

theorem strncmp_eq_zero_iff (n : Nat) (a b : List Nat) (hb : ∀ i, i < n → byteAt b i ≠ 0) :
    strncmp a b n = 0 ↔ ∀ i, i < n → byteAt a i = byteAt b i := by
  induction n generalizing a b with
  | zero => simp [strncmp]
  | succ k ih =>
    unfold strncmp
    by_cases h0 : byteAt a 0 = byteAt b 0
    · have hb0 : byteAt b 0 ≠ 0 := hb 0 (by omega)
      have ha0 : byteAt a 0 ≠ 0 := by rw [h0]; exact hb0
      simp only [h0, ne_eq, not_true_eq_false, if_false, hb0]
      rw [ih a.tail b.tail (fun i hi => by rw [byteAt_tail]; exact hb (i + 1) (by omega))]
      constructor
      · intro h i hi
        cases i with
        | zero => exact h0
        | succ j =>
          have := h j (by omega)
          rwa [byteAt_tail, byteAt_tail] at this
      · intro h i hi
        rw [byteAt_tail, byteAt_tail]
        exact h (i + 1) (by omega)
    · simp only [ne_eq, h0, not_false_eq_true, if_true]
      constructor
      · intro h
        exfalso
        apply h0
        have : (byteAt a 0 : Int) = (byteAt b 0 : Int) := by omega
        exact_mod_cast this
      · intro h
        exact absurd (h 0 (by omega)) h0

theorem strlen_eq_cstr_length (b : List Nat) : strlen b = (cstr b).length := by
  induction b with
  | nil => simp [strlen, cstr]
  | cons x xs ih =>
    unfold strlen cstr
    by_cases hx : x = 0
    · simp [hx]
    · simp only [hx, if_false, List.takeWhile_cons, ne_eq, not_false_eq_true, decide_True, if_true,
        List.length_cons]
      rw [ih]; rfl

theorem byteAt_cstr (b : List Nat) (i : Nat) (h : i < strlen b) :
    byteAt (cstr b) i = byteAt b i := by
  induction b generalizing i with
  | nil => simp [strlen] at h
  | cons x xs ih =>
    unfold strlen at h
    by_cases hx : x = 0
    · simp [hx] at h
    · simp only [hx, if_false] at h
      have hc : cstr (x :: xs) = x :: cstr xs := by simp [cstr, hx]
      rw [hc]
      cases i with
      | zero => simp [byteAt]
      | succ k =>
        rw [byteAt_cons_succ, byteAt_cons_succ]
        exact ih k (by omega)

theorem byteAt_of_length_le (l : List Nat) (i : Nat) (h : l.length ≤ i) : byteAt l i = 0 := by
  simp [byteAt, List.getD, List.getElem?_eq_none h]

theorem eq_of_byteAt_eq (a b : List Nat) (hl : a.length = b.length)
    (h : ∀ i, i < a.length → byteAt a i = byteAt b i) : a = b := by
  apply List.ext_getElem hl
  intro i h1 h2
  have := h i h1
  simpa [byteAt, List.getD, List.getElem?_eq_getElem h1, List.getElem?_eq_getElem h2] using this

theorem cstr_eq_imp (g s : List Nat) (h : cstr g = cstr s) :
    strlen g = strlen s ∧ ∀ i, i < strlen s → byteAt g i = byteAt s i := by
  have hl : strlen g = strlen s := by rw [strlen_eq_cstr_length, strlen_eq_cstr_length, h]
  refine ⟨hl, fun i hi => ?_⟩
  rw [← byteAt_cstr g i (by omega), ← byteAt_cstr s i hi, h]

theorem check_validity_eq (g : List Nat) (d : List (List Nat)) :
    check_validity g d =
      if strlen g ≠ 5 then VALID_BAD_INPUT
      else if ∃ i, i < WORDS_CAPACITY ∧ strncmp (row d i) g 5 = 0 then VALID_OK
      else VALID_NOT_FOUND := by
  unfold check_validity
  simp only [List.any_eq_true, List.mem_range, beq_iff_eq]

theorem check_validity_bad_iff (g : List Nat) (d : List (List Nat)) :
    check_validity g d = VALID_BAD_INPUT ↔ strlen g ≠ 5 := by
  rw [check_validity_eq]
  split_ifs with h1 h2 <;> simp_all

theorem check_validity_ok_iff (g : List Nat) (d : List (List Nat)) :
    check_validity g d = VALID_OK ↔
      strlen g = 5 ∧ ∃ i, i < WORDS_CAPACITY ∧ strncmp (row d i) g 5 = 0 := by
  rw [check_validity_eq]
  split_ifs with h1 h2
  · simp_all
  · simp only [true_iff]
    exact ⟨by omega, h2⟩
  · simp only [false_iff]
    exact fun h => h2 h.2

theorem check_validity_not_found_iff (g : List Nat) (d : List (List Nat)) :
    check_validity g d = VALID_NOT_FOUND ↔
      strlen g = 5 ∧ ∀ i, i < WORDS_CAPACITY → strncmp (row d i) g 5 ≠ 0 := by
  rw [check_validity_eq]
  split_ifs with h1 h2
  · simp_all
  · simp only [false_iff]
    obtain ⟨i, hi, h0⟩ := h2
    exact fun h => h.2 i hi h0
  · simp only [true_iff]
    exact ⟨by omega, fun i hi h0 => h2 ⟨i, hi, h0⟩⟩

theorem strncmp_five_iff (r g : List Nat) (h : strlen g = 5) :
    strncmp r g 5 = 0 ↔ ∀ i, i < 5 → byteAt r i = byteAt g i :=
  strncmp_eq_zero_iff 5 r g (fun i hi => byteAt_ne_zero_of_lt_strlen g i (by omega))

theorem strncmp_row_iff (r g : List Nat) (h : strlen g = 5) (hr : r.length = 5) :
    strncmp r g 5 = 0 ↔ r = cstr g := by
  rw [strncmp_five_iff r g h]
  have hc : (cstr g).length = 5 := by rw [← strlen_eq_cstr_length]; exact h
  constructor
  · intro hb
    apply eq_of_byteAt_eq r (cstr g) (by omega)
    intro i hi
    rw [byteAt_cstr g i (by omega)]
    exact hb i (by omega)
  · intro he i hi
    rw [he, byteAt_cstr g i (by omega)]

theorem strncmp_emptyRow (g : List Nat) (h : strlen g = 5) : strncmp emptyRow g 5 ≠ 0 := by
  intro hb
  rw [strncmp_five_iff _ g h] at hb
  have h0 := hb 0 (by omega)
  have hne := byteAt_ne_zero_of_lt_strlen g 0 (by omega)
  apply hne
  rw [← h0]
  decide

theorem row_of_lt (d : List (List Nat)) (i : Nat) (h : i < d.length) : row d i = d[i] := by
  simp [row, List.getD, List.getElem?_eq_getElem h]

theorem row_of_ge (d : List (List Nat)) (i : Nat) (h : d.length ≤ i) : row d i = emptyRow := by
  simp [row, List.getD, List.getElem?_eq_none h]

theorem row_tableOf (ws : List (List Nat)) (i : Nat) : row (tableOf ws) i = row ws i := by
  by_cases h : i < ws.length
  · rw [row_of_lt ws i h]
    rw [row_of_lt (tableOf ws) i (by simp [tableOf]; omega)]
    simp [tableOf, List.getElem_append_left h]
  · rw [row_of_ge ws i (by omega)]
    by_cases h2 : i < (tableOf ws).length
    · rw [row_of_lt _ i h2]
      simp only [tableOf]
      rw [List.getElem_append_right (by omega)]
      simp
    · exact row_of_ge _ i (by omega)

theorem check_validity_tableOf (g : List Nat) (ws : List (List Nat))
    (hl : ws.length ≤ WORDS_CAPACITY) :
    check_validity g (tableOf ws) =
      if strlen g ≠ 5 then VALID_BAD_INPUT
      else if ws.any (fun r => strncmp r g 5 == 0) then VALID_OK else VALID_NOT_FOUND := by
  by_cases h5 : strlen g ≠ 5
  · rw [if_pos h5]; exact (check_validity_bad_iff g _).mpr h5
  · rw [if_neg h5]
    have h5' : strlen g = 5 := by omega
    split_ifs with ha
    · rw [check_validity_ok_iff]
      refine ⟨h5', ?_⟩
      simp only [List.any_eq_true, beq_iff_eq] at ha
      obtain ⟨r, hr, h0⟩ := ha
      obtain ⟨i, hi, rfl⟩ := List.getElem_of_mem hr
      refine ⟨i, by omega, ?_⟩
      rw [row_tableOf, row_of_lt ws i hi]
      exact h0
    · rw [check_validity_not_found_iff]
      refine ⟨h5', fun i _ h0 => ?_⟩
      rw [row_tableOf] at h0
      by_cases hi : i < ws.length
      · rw [row_of_lt ws i hi] at h0
        apply ha
        simp only [List.any_eq_true, beq_iff_eq]
        exact ⟨ws[i], List.getElem_mem _, h0⟩
      · rw [row_of_ge ws i (by omega)] at h0
        exact strncmp_emptyRow g h5' h0

/-! ## Lemmas on the functions of game.c -/

theorem finRange_five : List.finRange 5 = [0, 1, 2, 3, 4] := by decide


theorem compare_char_fst (c : Nat) (i : Fin 5) (s : List Nat) (w : World) :
    (compare_char c i s w).1 =
      if c = byteAt s i then R_GREEN else if find_in_string c s then R_YELLOW else R_RED := by
  unfold compare_char
  split_ifs <;> rfl

theorem compare_char_snd (c : Nat) (i : Fin 5) (s : List Nat) (w : World) :
    (compare_char c i s w).2 =
      { w with matched := fun j => w.matched j || (decide (j = i) && decide (c = byteAt s i)) } := by
  unfold compare_char
  split_ifs with h1 h2
  · simp only [h1]
    congr 1
    funext j
    by_cases hj : j = i
    · subst hj; simp
    · simp [Function.update, hj]
  · simp [h1]
  · simp [h1]

theorem compare_guess_fst (g s : List Nat) (w : World) (i : Fin 5) :
    (compare_guess g s w).1 i =
      if byteAt g i = byteAt s i then R_GREEN
      else if find_in_string (byteAt g i) s then R_YELLOW else R_RED := by
  unfold compare_guess
  rw [finRange_five]
  simp only [List.foldl, compare_step, compare_char_fst]
  fin_cases i <;> simp [Function.update] <;> rfl

theorem compare_guess_snd (g s : List Nat) (w : World) :
    (compare_guess g s w).2 =
      { w with matched := fun j => w.matched j || decide (byteAt g j = byteAt s j) } := by
  unfold compare_guess
  rw [finRange_five]
  simp only [List.foldl, compare_step, compare_char_snd]
  congr 1
  funext j
  fin_cases j <;> simp <;> rfl

theorem foldl_printf {α : Type} (l : List α) (f : α → List Nat) (w : World) :
    l.foldl (fun (acc : World) i => acc.printf (f i)) w = w.printf (l.map f).flatten := by
  induction l generalizing w with
  | nil => simp [World.printf]
  | cons x xs ih =>
    simp only [List.foldl, ih, List.map, List.flatten]
    simp [World.printf]

theorem foldl_prompt {α : Type} (l : List α) (m : α → Fin 5) (a : α → Nat) (w : World) :
    l.foldl (fun (acc : World) i =>
        if acc.matched (m i) then acc.printf [a i] else acc.printf (ascii "-")) w
      = w.printf (l.map (fun i => if w.matched (m i) then a i else 45)) := by
  have h45 : ascii "-" = [45] := by decide
  induction l generalizing w with
  | nil => simp [World.printf]
  | cons x xs ih =>
    simp only [List.foldl, List.map]
    by_cases hx : w.matched (m x) = true
    · simp only [hx, if_true]
      rw [ih]
      simp [World.printf]
    · simp only [hx, if_false]
      rw [ih, h45]
      simp [World.printf]

/-- What `show_prompt` writes: five pattern bytes, then the guesses left. -/
theorem show_prompt_eq (secret : List Nat) (w : World) :
    show_prompt secret w =
      { w with stdout := w.stdout
          ++ (List.finRange 5).map (fun i => if w.matched i then byteAt secret i else 45)
          ++ (ascii "\n\n" ++ ascii (toString (toInt32 (5 - w.rounds))) ++ ascii "> ") } := by
  unfold show_prompt
  rw [foldl_prompt (List.finRange 5) (fun i => i) (fun i => byteAt secret i) w]
  simp [World.printf]

theorem display_feedback_eq (res : Fin 5 → CharComparison) (g : List Nat) (w : World) :
    display_feedback res g w =
      { w with stdout := w.stdout
          ++ (((List.finRange 5).map (fun i => feedback_cell (res i) (byteAt g i))).flatten
          ++ ascii "\n") } := by
  unfold display_feedback
  rw [foldl_printf]
  simp [World.printf]

theorem correct_count_eq_five (w : World) :
    correct_count w = 5 ↔ ∀ i, w.matched i = true := by
  have hall : (∀ i, w.matched i = true) ↔
      (w.matched 0 = true ∧ w.matched 1 = true ∧ w.matched 2 = true ∧ w.matched 3 = true
        ∧ w.matched 4 = true) :=
    ⟨fun h => ⟨h 0, h 1, h 2, h 3, h 4⟩,
     fun ⟨a, b, c, d, e⟩ i => by fin_cases i <;> assumption⟩
  rw [hall]
  unfold correct_count
  rw [finRange_five]
  simp only [List.foldl]
  cases h0 : w.matched 0 <;> cases h1 : w.matched 1 <;> cases h2 : w.matched 2 <;>
    cases h3 : w.matched 3 <;> cases h4 : w.matched 4 <;> simp

theorem guess_cycle_inactive (s : List Nat) (w : World) (h : w.active = false) :
    guess_cycle s w = some w := by
  simp [guess_cycle, h]

theorem guess_cycle_eof (s : List Nat) (w : World) (ha : w.active = true)
    (hr : read_input w.stdin = none) : guess_cycle s w = none := by
  simp [guess_cycle, ha, show_prompt_eq, hr]

theorem guess_cycle_bad (s g rest : List Nat) (w : World) (ha : w.active = true)
    (hr : read_input w.stdin = some (g, rest))
    (hv : check_validity g w.dictionary = VALID_BAD_INPUT) :
    guess_cycle s w = some { w with
      stdin := rest
      rounds := toInt32 (w.rounds + 1)
      stdout := (show_prompt s w).stdout ++ ascii "Bad input (must be 5 letters)\n" } := by
  simp [guess_cycle, ha, show_prompt_eq, hr, hv, World.printf]

theorem guess_cycle_not_found (s g rest : List Nat) (w : World) (ha : w.active = true)
    (hr : read_input w.stdin = some (g, rest))
    (hv : check_validity g w.dictionary = VALID_NOT_FOUND) :
    guess_cycle s w = some { w with
      stdin := rest
      rounds := toInt32 (w.rounds + 1)
      stdout := (show_prompt s w).stdout ++ ascii "No such word in dictionary\n" } := by
  simp [guess_cycle, ha, show_prompt_eq, hr, hv, World.printf]

theorem guess_cycle_valid (s g rest : List Nat) (w : World) (ha : w.active = true)
    (hr : read_input w.stdin = some (g, rest))
    (hv : check_validity g w.dictionary = VALID_OK) :
    ∃ out, guess_cycle s w = some
      (if ∀ j, (w.matched j || decide (byteAt g j = byteAt s j)) = true then
        { w with
          stdin := rest, stdout := out
          matched := fun j => w.matched j || decide (byteAt g j = byteAt s j)
          success := true, active := false }
      else if toInt32 (w.rounds + 1) ≥ 5 then
        { w with
          stdin := rest, stdout := out
          matched := fun j => w.matched j || decide (byteAt g j = byteAt s j)
          rounds := toInt32 (w.rounds + 1), success := false, active := false }
      else
        { w with
          stdin := rest, stdout := out
          matched := fun j => w.matched j || decide (byteAt g j = byteAt s j)
          rounds := toInt32 (w.rounds + 1) }) := by
  refine ⟨(display_feedback (compare_guess g s { show_prompt s w with stdin := rest }).1 g
    (compare_guess g s { show_prompt s w with stdin := rest }).2).stdout, ?_⟩
  simp only [guess_cycle, ha, show_prompt_eq, hr, hv, Bool.not_true, Bool.false_eq_true, if_false,
    correct_count_eq_five, compare_guess_snd, display_feedback_eq]
  split_ifs <;> rfl

theorem guess_cycle_invalid (s g rest : List Nat) (w : World) (ha : w.active = true)
    (hr : read_input w.stdin = some (g, rest))
    (hv : check_validity g w.dictionary ≠ VALID_OK) :
    ∃ w', guess_cycle s w = some w' ∧ w'.rounds = toInt32 (w.rounds + 1) ∧ w'.active = true ∧
      w'.matched = w.matched ∧ w'.success = w.success ∧ w'.stdin = rest ∧
      w'.dictionary = w.dictionary ∧
      w'.stdout = (show_prompt s w).stdout ++
        (if strlen g ≠ 5 then ascii "Bad input (must be 5 letters)\n"
         else ascii "No such word in dictionary\n") := by
  cases hc : check_validity g w.dictionary with
  | VALID_OK => exact absurd hc hv
  | VALID_BAD_INPUT =>
    have h5 : strlen g ≠ 5 := (check_validity_bad_iff g _).mp hc
    exact ⟨_, guess_cycle_bad s g rest w ha hr hc, rfl, ha, rfl, rfl, rfl, rfl, by simp [h5]⟩
  | VALID_NOT_FOUND =>
    have h5 : strlen g = 5 := ((check_validity_not_found_iff g _).mp hc).1
    exact ⟨_, guess_cycle_not_found s g rest w ha hr hc, rfl, ha, rfl, rfl, rfl, rfl, by simp [h5]⟩

theorem guess_cycle_cases (s : List Nat) (w w' : World) (h : guess_cycle s w = some w') :
    (w.active = false ∧ w' = w) ∨
    (w.active = true ∧ ∃ g rest, read_input w.stdin = some (g, rest) ∧ w'.stdin = rest ∧
      w'.dictionary = w.dictionary ∧
      ((check_validity g w.dictionary ≠ VALID_OK ∧ w'.matched = w.matched ∧
          w'.rounds = toInt32 (w.rounds + 1) ∧ w'.active = true ∧ w'.success = w.success) ∨
       (check_validity g w.dictionary = VALID_OK ∧
          w'.matched = (fun j => w.matched j || decide (byteAt g j = byteAt s j)) ∧
          (((∀ j, w'.matched j = true) ∧ w'.rounds = w.rounds ∧ w'.active = false ∧
              w'.success = true) ∨
           ((¬ ∀ j, w'.matched j = true) ∧ w'.rounds = toInt32 (w.rounds + 1) ∧
              w'.active = decide (toInt32 (w.rounds + 1) < 5) ∧
              w'.success = (if toInt32 (w.rounds + 1) ≥ 5 then false else w.success)))))) := by
  cases ha : w.active with
  | false =>
    left
    rw [guess_cycle_inactive s w ha] at h
    exact ⟨rfl, (Option.some.inj h).symm⟩
  | true =>
    right
    refine ⟨rfl, ?_⟩
    cases hr : read_input w.stdin with
    | none => rw [guess_cycle_eof s w ha hr] at h; cases h
    | some p =>
      obtain ⟨g, rest⟩ := p
      refine ⟨g, rest, rfl, ?_⟩
      by_cases hv : check_validity g w.dictionary = VALID_OK
      · obtain ⟨out, ho⟩ := guess_cycle_valid s g rest w ha hr hv
        rw [ho] at h
        have h' := (Option.some.inj h).symm
        by_cases h1 : ∀ j, (w.matched j || decide (byteAt g j = byteAt s j)) = true
        · rw [if_pos h1] at h'
          subst h'
          exact ⟨rfl, rfl, Or.inr ⟨hv, rfl, Or.inl ⟨h1, rfl, rfl, rfl⟩⟩⟩
        · rw [if_neg h1] at h'
          by_cases h2 : toInt32 (w.rounds + 1) ≥ 5
          · rw [if_pos h2] at h'
            subst h'
            refine ⟨rfl, rfl, Or.inr ⟨hv, rfl, Or.inr ⟨h1, rfl, ?_, ?_⟩⟩⟩
            · simp only [false_eq_decide_iff]; omega
            · simp [h2]
          · rw [if_neg h2] at h'
            subst h'
            refine ⟨rfl, rfl, Or.inr ⟨hv, rfl, Or.inr ⟨h1, rfl, ?_, ?_⟩⟩⟩
            · simp only [ha, true_eq_decide_iff]; omega
            · simp [h2]
      · obtain ⟨w1, h1, hrd, hact, hm, hsu, hin, hdi, _⟩ := guess_cycle_invalid s g rest w ha hr hv
        rw [h1] at h
        have h' := Option.some.inj h
        subst h'
        exact ⟨hin, hdi, Or.inl ⟨hv, hm, hrd, hact, hsu⟩⟩

/-! ## Lemmas on runs of guess cycles -/

theorem read_inputs_succ_eq (n : Nat) (s : List Nat) :
    read_inputs (n + 1) s =
      match read_input s with
      | none => none
      | some (g, rest) =>
        match read_inputs n rest with
        | none => none
        | some (gs, r) => some (g :: gs, r) := rfl

theorem read_inputs_succ (n : Nat) (s g : List Nat) (gs : List (List Nat)) (r : List Nat) :
    read_inputs (n + 1) s = some (g :: gs, r) ↔
      ∃ rest, read_input s = some (g, rest) ∧ read_inputs n rest = some (gs, r) := by
  rw [read_inputs_succ_eq]
  cases h1 : read_input s with
  | none => simp
  | some p =>
    obtain ⟨g1, rest1⟩ := p
    cases h2 : read_inputs n rest1 with
    | none =>
      simp only [h2]
      constructor
      · intro hx; cases hx
      rintro ⟨rest, hr, hn⟩
      simp only [Option.some.injEq, Prod.mk.injEq] at hr
      rw [← hr.2, h2] at hn
      cases hn
    | some q =>
      obtain ⟨gs1, r1⟩ := q
      simp only [h2, Option.some.injEq, Prod.mk.injEq, List.cons.injEq]
      constructor
      · rintro ⟨⟨hg, hgs⟩, hr⟩
        exact ⟨rest1, ⟨hg, rfl⟩, by rw [h2, hgs, hr]⟩
      · rintro ⟨rest, ⟨hg, hrest⟩, hn⟩
        rw [← hrest, h2] at hn
        simp only [Option.some.injEq, Prod.mk.injEq] at hn
        exact ⟨⟨hg, hn.1⟩, hn.2⟩

theorem read_inputs_length (n : Nat) (s : List Nat) (gs : List (List Nat)) (r : List Nat)
    (h : read_inputs n s = some (gs, r)) : gs.length = n := by
  induction n generalizing s gs with
  | zero =>
    simp only [read_inputs, Option.some.injEq, Prod.mk.injEq] at h
    rw [← h.1]; rfl
  | succ k ih =>
    cases gs with
    | nil =>
      rw [read_inputs_succ_eq] at h
      cases h1 : read_input s with
      | none => simp [h1] at h
      | some p =>
        obtain ⟨g1, rest1⟩ := p
        cases h2 : read_inputs k rest1 with
        | none => simp [h1, h2] at h
        | some q => simp [h1, h2] at h
    | cons g gs' =>
      obtain ⟨rest, _, hn⟩ := (read_inputs_succ k s g gs' r).mp h
      simp [ih rest gs' hn]

theorem read_inputs_take (n k : Nat) (s : List Nat) (gs : List (List Nat)) (r : List Nat)
    (h : read_inputs n s = some (gs, r)) (hk : k ≤ n) :
    ∃ r', read_inputs k s = some (gs.take k, r') := by
  induction k generalizing n s gs with
  | zero => exact ⟨s, by simp [read_inputs]⟩
  | succ j ih =>
    cases n with
    | zero => omega
    | succ m =>
      have hl := read_inputs_length _ _ _ _ h
      cases gs with
      | nil => simp at hl
      | cons g gs' =>
        obtain ⟨rest, hr, hn⟩ := (read_inputs_succ m s g gs' r).mp h
        obtain ⟨r', hr'⟩ := ih m rest gs' hn (by omega)
        exact ⟨r', by rw [List.take_succ_cons]; exact (read_inputs_succ j s g _ r').mpr ⟨rest, hr, hr'⟩⟩

theorem guess_cycles_succ (s : List Nat) (n : Nat) (w w1 : World)
    (h : guess_cycle s w = some w1) : guess_cycles s (n + 1) w = guess_cycles s n w1 := by
  simp [guess_cycles, h]

theorem guesses_read_succ (s : List Nat) (n : Nat) (w w1 : World)
    (h : guess_cycle s w = some w1) :
    guesses_read s (n + 1) w =
      (if w.active then ((read_input w.stdin).map Prod.fst).toList else [])
        ++ guesses_read s n w1 := by
  simp [guesses_read, h]

/-- Invalid guesses in a row, the counter staying in the `int` range: each
costs a round and none ends the session. -/
theorem guess_cycles_invalid (s : List Nat) (n : Nat) (w : World) (gs : List (List Nat))
    (rest : List Nat) (ha : w.active = true)
    (hlo : -2147483648 ≤ w.rounds) (hhi : w.rounds + n ≤ 2147483647)
    (hr : read_inputs n w.stdin = some (gs, rest))
    (hv : ∀ g ∈ gs, check_validity g w.dictionary ≠ VALID_OK) :
    ∃ w', guess_cycles s n w = some w' ∧ w'.rounds = w.rounds + n ∧ w'.active = true ∧
      w'.matched = w.matched ∧ w'.success = w.success ∧ w'.stdin = rest ∧
      w'.dictionary = w.dictionary := by
  induction n generalizing w gs with
  | zero =>
    simp only [read_inputs, Option.some.injEq, Prod.mk.injEq] at hr
    exact ⟨w, rfl, by simp, ha, rfl, rfl, hr.2, rfl⟩
  | succ k ih =>
    have hl := read_inputs_length _ _ _ _ hr
    cases gs with
    | nil => simp at hl
    | cons g gs' =>
      obtain ⟨r1, hr1, hn⟩ := (read_inputs_succ k _ g gs' rest).mp hr
      obtain ⟨w1, h1, hrd, hact, hm, hsu, hin, hdi, _⟩ :=
        guess_cycle_invalid s g r1 w ha hr1 (hv g (List.mem_cons_self _ _))
      push_cast at hhi
      rw [toInt32_of_range _ (by omega) (by omega)] at hrd
      obtain ⟨w', h', hrd', hact', hm', hsu', hin', hdi'⟩ :=
        ih w1 gs' hact (by rw [hrd]; omega) (by rw [hrd]; omega) (by rw [hin]; exact hn)
          (fun x hx => by rw [hdi]; exact hv x (List.mem_cons_of_mem _ hx))
      refine ⟨w', by rw [guess_cycles_succ s k w w1 h1]; exact h', ?_, hact', ?_, ?_, hin', ?_⟩
      · rw [hrd', hrd]; push_cast; ring
      · rw [hm', hm]
      · rw [hsu', hsu]
      · rw [hdi', hdi]

theorem guess_cycle_valid_fields (s g rest : List Nat) (w : World) (ha : w.active = true)
    (hr : read_input w.stdin = some (g, rest))
    (hv : check_validity g w.dictionary = VALID_OK) :
    ∃ w', guess_cycle s w = some w' ∧ w'.stdin = rest ∧ w'.dictionary = w.dictionary ∧
      w'.matched = (fun j => w.matched j || decide (byteAt g j = byteAt s j)) ∧
      (((∀ j, w'.matched j = true) ∧ w'.rounds = w.rounds ∧ w'.active = false ∧
          w'.success = true) ∨
       ((¬ ∀ j, w'.matched j = true) ∧ w'.rounds = toInt32 (w.rounds + 1) ∧
          w'.active = decide (toInt32 (w.rounds + 1) < 5) ∧
          w'.success = (if toInt32 (w.rounds + 1) ≥ 5 then false else w.success))) := by
  obtain ⟨out, ho⟩ := guess_cycle_valid s g rest w ha hr hv
  refine ⟨_, ho, ?_⟩
  rcases guess_cycle_cases s w _ ho with ⟨hf, _⟩ | ⟨_, g', rest', hr', hin, hdi, hc⟩
  · rw [ha] at hf; cases hf
  · rw [hr] at hr'
    simp only [Option.some.injEq, Prod.mk.injEq] at hr'
    obtain ⟨hg, hrest⟩ := hr'
    subst hg hrest
    rcases hc with ⟨hne, _⟩ | ⟨_, hm, hrest⟩
    · exact absurd hv hne
    · exact ⟨hin, hdi, hm, hrest⟩

/-- Valid guesses in a row that leave some position `j` unmatched: each costs
a round, and the session ends (lost) exactly when the counter reaches 5. -/
theorem guess_cycles_valid_miss (s : List Nat) (j : Fin 5) (n : Nat) (w : World)
    (gs : List (List Nat)) (rest : List Nat) (ha : w.active = true) (hsu : w.success = false)
    (hlo : -2147483648 ≤ w.rounds) (hlt : w.rounds < 5) (hle : w.rounds + n ≤ 5)
    (hr : read_inputs n w.stdin = some (gs, rest))
    (hv : ∀ g ∈ gs, check_validity g w.dictionary = VALID_OK)
    (hj : w.matched j = false) (hmiss : ∀ g ∈ gs, byteAt g j ≠ byteAt s j) :
    ∃ w', guess_cycles s n w = some w' ∧ w'.rounds = w.rounds + n ∧
      w'.active = decide (w.rounds + n < 5) ∧ w'.success = false ∧ w'.stdin = rest ∧
      w'.dictionary = w.dictionary ∧ w'.matched j = false := by
  induction n generalizing w gs with
  | zero =>
    simp only [read_inputs, Option.some.injEq, Prod.mk.injEq] at hr
    refine ⟨w, rfl, by simp, ?_, hsu, hr.2, rfl, hj⟩
    simp only [ha, true_eq_decide_iff]; push_cast; omega
  | succ k ih =>
    have hl := read_inputs_length _ _ _ _ hr
    cases gs with
    | nil => simp at hl
    | cons g gs' =>
      obtain ⟨r1, hr1, hn⟩ := (read_inputs_succ k _ g gs' rest).mp hr
      have hvg := hv g (List.mem_cons_self _ _)
      have hmg := hmiss g (List.mem_cons_self _ _)
      obtain ⟨w1, h1, hin, hdi, hm, hc⟩ := guess_cycle_valid_fields s g r1 w ha hr1 hvg
      have hj1 : w1.matched j = false := by rw [hm]; simp [hj, hmg]
      push_cast at hle
      rcases hc with ⟨hall, _⟩ | ⟨_, hrd, hact, hsu1⟩
      · rw [hall j] at hj1; cases hj1
      · rw [toInt32_of_range _ (by omega) (by omega)] at hrd hact hsu1
        by_cases h5 : w.rounds + 1 ≥ 5
        · have hk : k = 0 := by omega
          subst hk
          simp only [read_inputs, Option.some.injEq, Prod.mk.injEq] at hn
          refine ⟨w1, by rw [guess_cycles_succ s 0 w w1 h1]; rfl, by rw [hrd]; simp, ?_, ?_,
            by rw [hin]; exact hn.2, hdi, hj1⟩
          · rw [hact]; simp
          · rw [hsu1]; simp [h5]
        · have hact1 : w1.active = true := by rw [hact]; simp; omega
          have hsu1' : w1.success = false := by rw [hsu1]; simp [h5, hsu]
          obtain ⟨w', h', hrd', hact', hsu', hin', hdi', hj'⟩ :=
            ih w1 gs' hact1 hsu1' (by rw [hrd]; omega) (by rw [hrd]; omega)
              (by rw [hrd]; omega) (by rw [hin]; exact hn)
              (fun x hx => by rw [hdi]; exact hv x (List.mem_cons_of_mem _ hx))
              hj1
              (fun x hx => hmiss x (List.mem_cons_of_mem _ hx))
          refine ⟨w', by rw [guess_cycles_succ s k w w1 h1]; exact h', ?_, ?_, hsu', hin', ?_, hj'⟩
          · rw [hrd', hrd]; push_cast; ring
          · rw [hact', hrd]; congr 1; push_cast; apply propext; constructor <;> intro h <;> omega
          · rw [hdi', hdi]

theorem guess_cycles_succ_some (s : List Nat) (n : Nat) (w w' : World)
    (h : guess_cycles s (n + 1) w = some w') :
    ∃ w1, guess_cycle s w = some w1 ∧ guess_cycles s n w1 = some w' := by
  simp only [guess_cycles] at h
  cases h1 : guess_cycle s w with
  | none => simp [h1] at h
  | some w1 => exact ⟨w1, rfl, by simpa [h1] using h⟩

/-- The mask after a run: what it was, plus the positions where a valid guess
read on the way agreed with the secret. -/
theorem guess_cycles_matched (s : List Nat) (n : Nat) (w w' : World)
    (h : guess_cycles s n w = some w') :
    w'.dictionary = w.dictionary ∧
    ∀ j, w'.matched j = (w.matched j || (guesses_read s n w).any (fun g =>
      decide (check_validity g w.dictionary = VALID_OK) && decide (byteAt g j = byteAt s j))) := by
  induction n generalizing w with
  | zero =>
    simp only [guess_cycles, Option.some.injEq] at h
    subst h
    simp [guesses_read]
  | succ k ih =>
    obtain ⟨w1, h1, hk⟩ := guess_cycles_succ_some s k w w' h
    obtain ⟨hd, hm⟩ := ih w1 hk
    rw [guesses_read_succ s k w w1 h1]
    rcases guess_cycle_cases s w w1 h1 with ⟨hf, he⟩ | ⟨ha, g, rest, hr, _, hdi, hc⟩
    · subst he
      refine ⟨hd, fun j => ?_⟩
      rw [hm j]; simp [hf]
    · refine ⟨by rw [hd, hdi], fun j => ?_⟩
      rw [hm j, hdi]
      simp only [ha, if_true, hr, Option.map_some', Option.toList_some, List.singleton_append,
        List.any_cons]
      rcases hc with ⟨hne, hmm, _⟩ | ⟨hv, hmm, _⟩
      · rw [hmm]; simp [hne]
      · rw [hmm]; simp [hv, Bool.or_assoc]

theorem guess_cycle_mono (s : List Nat) (w w' : World) (h : guess_cycle s w = some w')
    (i : Fin 5) (hi : w.matched i = true) : w'.matched i = true := by
  rcases guess_cycle_cases s w w' h with ⟨_, he⟩ | ⟨_, g, rest, _, _, _, hc⟩
  · rw [he]; exact hi
  · rcases hc with ⟨_, hmm, _⟩ | ⟨_, hmm, _⟩
    · rw [hmm]; exact hi
    · rw [hmm]; simp [hi]

theorem guess_cycles_mono (s : List Nat) (n : Nat) (w w' : World)
    (h : guess_cycles s n w = some w') (i : Fin 5) (hi : w.matched i = true) :
    w'.matched i = true := by
  induction n generalizing w with
  | zero =>
    simp only [guess_cycles, Option.some.injEq] at h
    subst h; exact hi
  | succ k ih =>
    obtain ⟨w1, h1, hk⟩ := guess_cycles_succ_some s k w w' h
    exact ih w1 hk (guess_cycle_mono s w w1 h1 i hi)

/-! ## Lemmas on `load_dictionary` -/

theorem fgetsLoop_rest_length (n : Nat) (b : Nat) (s : List Nat) :
    (fgetsLoop (n + 1) (b :: s)).2.length ≤ s.length := by
  induction n generalizing b s with
  | zero =>
    unfold fgetsLoop
    split_ifs <;> simp [fgetsLoop]
  | succ k ih =>
    unfold fgetsLoop
    split_ifs
    · simp
    · cases s with
      | nil => simp [fgetsLoop]
      | cons c cs =>
        have := ih c cs
        simp only [List.length_cons]
        omega

theorem fgets_rest_length (fp line rest : List Nat) (h : fgets 32 fp = some (line, rest)) :
    rest.length < fp.length := by
  unfold fgets at h
  cases fp with
  | nil => simp at h
  | cons b s =>
    simp only [reduceCtorEq, if_false, Option.some.injEq] at h
    have hl := fgetsLoop_rest_length 30 b s
    have h2 : (fgetsLoop (30 + 1) (b :: s)).2 = rest := by
      have := congrArg Prod.snd h
      simpa using this
    rw [h2] at hl
    simp only [List.length_cons]
    omega

/-- The fuel `load_dictionary` gives its loop is enough: once the fuel covers
the bytes left, more fuel changes nothing (the loop stops at end of file). -/
theorem load_loop_fuel (fuel : Nat) (fp : List Nat) (d : List (List Nat)) (index : Nat)
    (h : fp.length ≤ fuel) : load_loop (fuel + 1) fp d index = load_loop fuel fp d index := by
  induction fuel generalizing fp d index with
  | zero =>
    have : fp = [] := List.length_eq_zero.mp (by omega)
    subst this
    simp [load_loop, fgets]
  | succ k ih =>
    rw [load_loop]
    conv_rhs => rw [load_loop]
    cases hf : fgets 32 fp with
    | none => rfl
    | some p =>
      obtain ⟨line, rest⟩ := p
      have hlt := fgets_rest_length fp line rest hf
      simp only []
      rw [ih rest _ _ (by omega), ih rest _ _ (by omega)]

theorem strncpy_length (src : List Nat) (n : Nat) : (strncpy src n).length = n := by
  induction n generalizing src with
  | zero => simp [strncpy]
  | succ k ih =>
    unfold strncpy
    split_ifs
    · simp
    · simp [ih]

theorem strlen_strncpy (src : List Nat) (n : Nat) (h : n ≤ strlen src) :
    strlen (strncpy src n) = n := by
  induction n generalizing src with
  | zero => simp [strncpy, strlen]
  | succ k ih =>
    cases src with
    | nil => simp [strlen] at h
    | cons x xs =>
      unfold strlen at h
      by_cases hx : x = 0
      · simp [hx] at h
      · simp only [hx, if_false] at h
        unfold strncpy
        simp only [byteAt_cons_zero, hx, if_false, List.tail_cons]
        unfold strlen
        simp only [hx, if_false]
        rw [ih xs (by omega)]

theorem strlen_set_zero (l : List Nat) (i : Nat) (h : i < strlen l) :
    strlen (l.set i 0) = i := by
  induction l generalizing i with
  | nil => simp [strlen] at h
  | cons x xs ih =>
    unfold strlen at h
    by_cases hx : x = 0
    · simp [hx] at h
    · simp only [hx, if_false] at h
      cases i with
      | zero => simp [strlen]
      | succ k =>
        simp only [List.set_cons_succ]
        unfold strlen
        simp only [hx, if_false]
        rw [ih k (by omega)]

theorem row_set (d : List (List Nat)) (k i : Nat) (v : List Nat) (hk : k < d.length) :
    row (d.set k v) i = if i = k then v else row d i := by
  unfold row
  simp only [List.getD_eq_getElem?_getD, List.getElem?_set]
  by_cases h : k = i
  · subst h; simp [hk]
  · have h' : ¬ i = k := fun e => h e.symm
    simp [h, h']

theorem loaded_start : Loaded (List.replicate WORDS_CAPACITY emptyRow) 0 := by
  refine ⟨by simp, by omega, fun i hi => by omega, fun i _ => ?_⟩
  unfold row
  by_cases h : i < WORDS_CAPACITY
  · simp [List.getD_eq_getElem?_getD, List.getElem?_replicate, h]
  · simp [List.getD_eq_getElem?_getD, List.getElem?_replicate, h]

theorem loaded_set (d : List (List Nat)) (index : Nat) (v : List Nat) (h : Loaded d index)
    (hlt : index < WORDS_CAPACITY) (hv : v.length = 5) (hs : strlen v = 5) :
    Loaded (d.set index v) (index + 1) := by
  obtain ⟨hlen, _, hrows, hrest⟩ := h
  refine ⟨by simp [hlen], by omega, fun i hi => ?_, fun i hi => ?_⟩
  · rw [row_set d index i v (by omega)]
    by_cases he : i = index
    · simp [he, hv, hs]
    · simp only [he, if_false]
      exact hrows i (by omega)
  · rw [row_set d index i v (by omega)]
    have he : ¬ i = index := by omega
    simp only [he, if_false]
    exact hrest i (by omega)

theorem load_loop_loaded (fuel : Nat) (fp : List Nat) (d : List (List Nat)) (index : Nat)
    (h : Loaded d index) (hlt : index < WORDS_CAPACITY) :
    Loaded (load_loop fuel fp d index).1 (load_loop fuel fp d index).2 := by
  induction fuel generalizing fp d index with
  | zero => simpa [load_loop] using h
  | succ k ih =>
    unfold load_loop
    cases hf : fgets 32 fp with
    | none => simpa using h
    | some p =>
      obtain ⟨line, rest⟩ := p
      have key : ∀ (line' : List Nat) (len' : Nat), strlen line' = len' →
          Loaded
            (if len' = 5 then
              if index + 1 ≥ WORDS_CAPACITY then (d.set index (strncpy line' 5), index + 1)
              else load_loop k rest (d.set index (strncpy line' 5)) (index + 1)
            else load_loop k rest d index).1
            (if len' = 5 then
              if index + 1 ≥ WORDS_CAPACITY then (d.set index (strncpy line' 5), index + 1)
              else load_loop k rest (d.set index (strncpy line' 5)) (index + 1)
            else load_loop k rest d index).2 := by
        intro line' len' hs
        by_cases h5 : len' = 5
        · have hset : Loaded (d.set index (strncpy line' 5)) (index + 1) :=
            loaded_set d index _ h hlt (strncpy_length _ 5) (strlen_strncpy _ 5 (by omega))
          by_cases hcap : index + 1 ≥ WORDS_CAPACITY
          · simpa only [h5, hcap, if_true] using hset
          · simp only [h5, hcap, if_true, if_false]
            exact ih rest _ _ hset (by omega)
        · simp only [h5, if_false]
          exact ih rest d index h hlt
      by_cases hstrip :
          (decide (strlen line > 0) && decide (byteAt line (strlen line - 1) = 10)) = true
      · simp only [hstrip, if_true]
        exact key _ _ (strlen_set_zero line _ (by simp at hstrip; omega))
      · simp only [hstrip, if_false]
        exact key _ _ rfl

theorem load_dictionary_loaded (file : Option (List Nat)) (input : List Nat) :
    Loaded (load_dictionary file (World.start input)).2.dictionary
      (load_dictionary file (World.start input)).1.toNat := by
  cases file with
  | none => simpa [load_dictionary, World.start] using loaded_start
  | some fp =>
    simp only [load_dictionary, World.start, Int.toNat_ofNat]
    exact load_loop_loaded _ _ _ _ loaded_start (by decide)

theorem loaded_valid_iff (d : List (List Nat)) (index : Nat) (h : Loaded d index)
    (word : List Nat) :
    check_validity word d = VALID_OK ↔ strlen word = 5 ∧ cstr word ∈ d.take index := by
  obtain ⟨hlen, hle, hrows, hrest⟩ := h
  rw [check_validity_ok_iff]
  constructor
  · rintro ⟨h5, i, hi, h0⟩
    refine ⟨h5, ?_⟩
    by_cases hlt : i < index
    · rw [strncmp_row_iff _ _ h5 (hrows i hlt).1] at h0
      rw [List.mem_take_iff_getElem]
      refine ⟨i, by rw [hlen]; omega, ?_⟩
      rw [← h0, row_of_lt d i (by omega)]
    · rw [hrest i (by omega)] at h0
      exact absurd h0 (strncmp_emptyRow word h5)
  · rintro ⟨h5, hm⟩
    refine ⟨h5, ?_⟩
    rw [List.mem_take_iff_getElem] at hm
    obtain ⟨i, hi, he⟩ := hm
    have hi' : i < index := by omega
    have hil : i < d.length := by omega
    refine ⟨i, by omega, ?_⟩
    rw [strncmp_row_iff _ _ h5 (hrows i hi').1, row_of_lt d i hil]
    exact he

/-- Loading `demoFile` at program start gives the session on `demoWords`
that the worked examples start from, with count 5. -/
theorem load_demoFile (input : List Nat) :
    load_dictionary (some demoFile) (World.start input) = (5, session demoWords input) := by
  set_option maxRecDepth 100000 in rfl

theorem byteAt_append_mid (a b c : List Nat) (i : Nat) (h : i < b.length) :
    byteAt (a ++ b ++ c) (a.length + i) = byteAt b i := by
  unfold byteAt
  rw [List.append_assoc, List.getD_eq_getElem?_getD, List.getD_eq_getElem?_getD,
    List.getElem?_append_right (by omega)]
  simp [List.getElem?_append_left h]

theorem byteAt_map_finRange (f : Fin 5 → Nat) (i : Fin 5) :
    byteAt ((List.finRange 5).map f) i = f i := by
  rw [finRange_five]
  fin_cases i <;> rfl

/-! ## Lemmas on whole lines, the status invariant and `select_word` -/

theorem spec_lines_cons_ne (b : Nat) (s : List Nat) (hb : b ≠ 10) :
    spec_lines (b :: s) =
      match spec_lines s with
      | [] => [[b]]
      | l :: ls => (b :: l) :: ls := by
  rw [spec_lines]
  simp [hb]

theorem spec_lines_eq_nil (file : List Nat) (h : spec_lines file = []) : file = [] := by
  cases file with
  | nil => rfl
  | cons b s =>
    by_cases hb : b = 10
    · simp [spec_lines, hb] at h
    · rw [spec_lines_cons_ne b s hb] at h
      cases hs : spec_lines s with
      | nil => simp [hs] at h
      | cons l ls => simp [hs] at h

/-- What one `fgets` reads from a text: the first line with its newline, or
the unterminated last line, when the line fits the buffer. -/
theorem fgetsLoop_first_line (n : Nat) (file : List Nat) (hne : file ≠ []) :
    ∃ l ls, spec_lines file = l :: ls ∧ 10 ∉ l ∧
      (l.length < n → ∃ buf rest, fgetsLoop n file = (buf, rest) ∧ spec_lines rest = ls ∧
        (buf = l ++ [10] ∨ buf = l)) := by
  induction file generalizing n with
  | nil => exact absurd rfl hne
  | cons b s ih =>
    by_cases hb : b = 10
    · refine ⟨[], spec_lines s, by simp [spec_lines, hb], by simp, fun hn => ?_⟩
      cases n with
      | zero => simp at hn
      | succ m => exact ⟨[10], s, by simp [fgetsLoop, hb], rfl, Or.inl rfl⟩
    · rw [spec_lines_cons_ne b s hb]
      by_cases hs : s = []
      · subst hs
        refine ⟨[b], [], by simp [spec_lines], by simpa using fun h => hb h.symm, fun hn => ?_⟩
        cases n with
        | zero => simp at hn
        | succ m =>
          refine ⟨[b], [], ?_, rfl, Or.inr rfl⟩
          cases m with
          | zero => simp at hn
          | succ k => simp [fgetsLoop, hb]
      · obtain ⟨l, ls, hl, h10, hread⟩ := ih (n - 1) hs
        refine ⟨b :: l, ls, by simp [hl], ?_, fun hn => ?_⟩
        · simp only [List.mem_cons, not_or]
          exact ⟨fun h => hb h.symm, h10⟩
        · cases n with
          | zero => simp at hn
          | succ m =>
            simp only [List.length_cons] at hn
            obtain ⟨buf, rest, hf, hr, hbuf⟩ := hread (by simpa using (by omega : l.length < m))
            simp only [Nat.add_sub_cancel] at hf
            refine ⟨b :: buf, rest, by simp [fgetsLoop, hb, hf], hr, ?_⟩
            rcases hbuf with h | h
            · left; simp [h]
            · right; simp [h]

theorem strlen_append_of_no_zero (l t : List Nat) (h0 : 0 ∉ l) :
    strlen (l ++ t) = l.length + strlen t := by
  induction l with
  | nil => simp
  | cons x xs ih =>
    simp only [List.mem_cons, not_or] at h0
    have hx : ¬ x = 0 := fun h => h0.1 h.symm
    have hstep : strlen (x :: (xs ++ t)) = strlen (xs ++ t) + 1 := by
      rw [strlen]; simp [hx]
    rw [List.cons_append, hstep, ih h0.2, List.length_cons]; omega

theorem byteAt_append_right (l t : List Nat) (k : Nat) :
    byteAt (l ++ t) (l.length + k) = byteAt t k := by
  unfold byteAt
  rw [List.getD_eq_getElem?_getD, List.getD_eq_getElem?_getD,
    List.getElem?_append_right (by omega)]
  simp

theorem byteAt_mem (l : List Nat) (k : Nat) (h : k < l.length) : byteAt l k ∈ l := by
  unfold byteAt
  rw [List.getD_eq_getElem?_getD, List.getElem?_eq_getElem h]
  exact List.getElem_mem _

theorem strncpy_append_of_no_zero (l t : List Nat) (h0 : 0 ∉ l) :
    strncpy (l ++ t) l.length = l := by
  induction l with
  | nil => rfl
  | cons x xs ih =>
    simp only [List.mem_cons, not_or] at h0
    have hx : ¬ x = 0 := fun h => h0.1 h.symm
    simp only [List.cons_append, List.length_cons, strncpy, byteAt_cons_zero, hx, if_false,
      List.tail_cons]
    rw [ih h0.2]

/-- The line buffer after the newline is stripped: its length is the line's,
and a 5-character line is copied whole. -/
theorem strip_line (l buf : List Nat) (h0 : 0 ∉ l) (h10 : 10 ∉ l)
    (hb : buf = l ++ [10] ∨ buf = l) :
    (if (decide (strlen buf > 0) && decide (byteAt buf (strlen buf - 1) = 10)) = true
      then strlen buf - 1 else strlen buf) = l.length ∧
    (l.length = 5 →
      strncpy (if (decide (strlen buf > 0) && decide (byteAt buf (strlen buf - 1) = 10)) = true
        then buf.set (strlen buf - 1) 0 else buf) 5 = l) := by
  rcases hb with hb | hb
  · have hlen : strlen buf = l.length + 1 := by
      rw [hb, strlen_append_of_no_zero l _ h0]; simp [strlen]
    have hlast : byteAt buf (strlen buf - 1) = 10 := by
      rw [hlen, hb]
      have := byteAt_append_right l [10] 0
      simp [byteAt]
    have hstrip : (decide (strlen buf > 0) && decide (byteAt buf (strlen buf - 1) = 10)) = true := by
      rw [hlast]
      simp [hlen]
    rw [if_pos hstrip, if_pos hstrip, hlen]
    refine ⟨by omega, fun h5 => ?_⟩
    have hset : buf.set (l.length + 1 - 1) 0 = l ++ [0] := by
      rw [hb]
      simp [List.set_append]
    rw [hset, ← h5]
    exact strncpy_append_of_no_zero l [0] h0
  · have hlen : strlen buf = l.length := by
      rw [hb]
      have := strlen_append_of_no_zero l [] h0
      simpa [strlen] using this
    have hstrip : ¬ (decide (strlen buf > 0) && decide (byteAt buf (strlen buf - 1) = 10)) = true := by
      simp only [Bool.and_eq_true, decide_eq_true_eq, not_and]
      intro hpos hlast
      rw [hlen] at hpos hlast
      rw [hb] at hlast
      have := byteAt_mem l (l.length - 1) (by omega)
      rw [hlast] at this
      exact h10 this
    rw [if_neg hstrip, if_neg hstrip]
    refine ⟨hlen, fun h5 => ?_⟩
    rw [hb, ← h5]
    have := strncpy_append_of_no_zero l [] h0
    simpa using this

theorem take_set_succ (d : List (List Nat)) (i : Nat) (v : List Nat) (h : i < d.length) :
    (d.set i v).take (i + 1) = d.take i ++ [v] := by
  induction d generalizing i with
  | nil => simp at h
  | cons x xs ih =>
    cases i with
    | zero => simp
    | succ k =>
      simp only [List.set_cons_succ, List.take_succ_cons, List.cons_append]
      rw [ih k (by simpa using h)]

/-- On a text without NUL bytes whose lines have at most 30 characters, the
loop of `load_dictionary` stores the 5-character lines in order behind the
`i` words already stored, up to the capacity. -/
theorem load_loop_short_lines (fuel : Nat) (file : List Nat) (d : List (List Nat)) (i : Nat)
    (hfuel : file.length ≤ fuel) (hd : d.length = WORDS_CAPACITY) (hi : i < WORDS_CAPACITY)
    (hshort : ∀ l ∈ spec_lines file, l.length ≤ 30 ∧ 0 ∉ l) :
    (load_loop fuel file d i).2 =
      i + (((spec_lines file).filter (fun l => l.length = 5)).take (WORDS_CAPACITY - i)).length ∧
    (load_loop fuel file d i).1.take (load_loop fuel file d i).2 =
      d.take i ++ ((spec_lines file).filter (fun l => l.length = 5)).take (WORDS_CAPACITY - i) := by
  induction fuel generalizing file d i with
  | zero =>
    have : file = [] := List.length_eq_zero.mp (by omega)
    subst this
    simp [load_loop, spec_lines]
  | succ k ih =>
    by_cases hne : file = []
    · subst hne
      simp [load_loop, fgets, spec_lines]
    · obtain ⟨l, ls, hl, h10, hread⟩ := fgetsLoop_first_line 31 file hne
      have hmem : l ∈ spec_lines file := by rw [hl]; exact List.mem_cons_self _ _
      obtain ⟨hl30, h0⟩ := hshort l hmem
      obtain ⟨buf, rest, hf, hr, hbuf⟩ := hread (by omega)
      have hfg : fgets 32 file = some (buf, rest) := by
        unfold fgets
        rw [if_neg hne]
        exact congrArg some hf
      have hlt := fgets_rest_length file buf rest hfg
      have hrest : ∀ l' ∈ spec_lines rest, l'.length ≤ 30 ∧ 0 ∉ l' := by
        intro l' hl'
        rw [hr] at hl'
        exact hshort l' (by rw [hl]; exact List.mem_cons_of_mem _ hl')
      obtain ⟨hs1, hs2⟩ := strip_line l buf h0 h10 hbuf
      have key : ∀ (line' : List Nat) (len' : Nat), len' = l.length →
          (l.length = 5 → strncpy line' 5 = l) →
          (if len' = 5 then
              if i + 1 ≥ WORDS_CAPACITY then (d.set i (strncpy line' 5), i + 1)
              else load_loop k rest (d.set i (strncpy line' 5)) (i + 1)
            else load_loop k rest d i).2 =
            i + (((l :: ls).filter (fun l => l.length = 5)).take (WORDS_CAPACITY - i)).length ∧
          (if len' = 5 then
              if i + 1 ≥ WORDS_CAPACITY then (d.set i (strncpy line' 5), i + 1)
              else load_loop k rest (d.set i (strncpy line' 5)) (i + 1)
            else load_loop k rest d i).1.take
            (if len' = 5 then
              if i + 1 ≥ WORDS_CAPACITY then (d.set i (strncpy line' 5), i + 1)
              else load_loop k rest (d.set i (strncpy line' 5)) (i + 1)
            else load_loop k rest d i).2 =
            d.take i ++ ((l :: ls).filter (fun l => l.length = 5)).take (WORDS_CAPACITY - i) := by
        intro line' len' hlen hcopy
        by_cases h5 : len' = 5
        · have hl5 : l.length = 5 := by omega
          rw [if_pos h5, hcopy hl5]
          have hfil : (l :: ls).filter (fun l => l.length = 5)
              = l :: ls.filter (fun l => l.length = 5) := by
            simp [List.filter_cons, hl5]
          have htk : ∀ F : List (List Nat), (l :: F).take (WORDS_CAPACITY - i)
              = l :: F.take (WORDS_CAPACITY - (i + 1)) := by
            intro F
            have : WORDS_CAPACITY - i = (WORDS_CAPACITY - (i + 1)) + 1 := by omega
            rw [this, List.take_succ_cons]
          rw [hfil, htk]
          by_cases hcap : i + 1 ≥ WORDS_CAPACITY
          · rw [if_pos hcap]
            have h0' : WORDS_CAPACITY - (i + 1) = 0 := by omega
            simp only [h0', List.take_zero, List.length_cons, List.length_nil]
            exact ⟨trivial, take_set_succ d i l (by omega)⟩
          · rw [if_neg hcap]
            obtain ⟨i1, i2⟩ := ih rest (d.set i l) (i + 1) (by omega) (by simp [hd])
              (by omega) hrest
            rw [hr] at i1 i2
            refine ⟨by rw [i1]; simp only [List.length_cons]; omega, ?_⟩
            rw [i2, take_set_succ d i l (by omega)]
            simp
        · have hl5 : ¬ l.length = 5 := by omega
          rw [if_neg h5]
          have hfil : (l :: ls).filter (fun l => l.length = 5)
              = ls.filter (fun l => l.length = 5) := by
            simp [List.filter_cons, hl5]
          rw [hfil]
          obtain ⟨i1, i2⟩ := ih rest d i (by omega) hd hi hrest
          rw [hr] at i1 i2
          exact ⟨i1, i2⟩
      rw [hl, load_loop, hfg]
      simp only []
      by_cases hstrip :
          (decide (strlen buf > 0) && decide (byteAt buf (strlen buf - 1) = 10)) = true
      · simp only [hstrip, if_true] at hs1 hs2 ⊢
        exact key _ _ hs1 hs2
      · simp only [hstrip, if_false] at hs1 hs2 ⊢
        exact key _ _ hs1 hs2

/-- On a text without NUL bytes whose lines have at most 30 characters,
`load_dictionary` returns the number of 5-character lines (up to the capacity)
and holds exactly these lines, in file order, in the first rows of the table. -/
theorem load_dictionary_short_lines (file input : List Nat)
    (hshort : ∀ l ∈ spec_lines file, l.length ≤ 30 ∧ 0 ∉ l) :
    (load_dictionary (some file) (World.start input)).1 = (spec_retained file).length ∧
    (load_dictionary (some file) (World.start input)).2.dictionary.take
        (load_dictionary (some file) (World.start input)).1.toNat = spec_retained file := by
  obtain ⟨h1, h2⟩ := load_loop_short_lines file.length file
    (List.replicate WORDS_CAPACITY emptyRow) 0 (Nat.le_refl _) (by simp) (by decide) hshort
  simp only [Nat.zero_add, Nat.sub_zero, List.take_zero, List.nil_append] at h1 h2
  simp only [load_dictionary, World.start, Int.toNat_ofNat, spec_retained]
  exact ⟨by rw [h1], h2⟩

theorem statusInv_start (w : World) (ha : w.active = true) (hs : w.success = false)
    (hm : ∀ i, w.matched i = false) : StatusInv w := by
  refine ⟨fun h => ?_, fun h => ?_, fun _ hall => ?_⟩
  · rw [hs] at h; cases h
  · rw [ha] at h; cases h
  · have := hall 0
    rw [hm 0] at this
    cases this

theorem statusInv_step (s : List Nat) (w w' : World) (hi : StatusInv w)
    (h : guess_cycle s w = some w') : StatusInv w' := by
  obtain ⟨ia, ib, ic⟩ := hi
  rcases guess_cycle_cases s w w' h with ⟨_, he⟩ | ⟨ha, g, rest, _, _, _, hc⟩
  · rw [he]; exact ⟨ia, ib, ic⟩
  · have hsf : w.success = false := by
      cases hs : w.success with
      | false => rfl
      | true =>
        have := (ia hs).1
        rw [ha] at this
        cases this
    rcases hc with ⟨_, hm, _, hact, hsu⟩ | ⟨_, _, hc2⟩
    · refine ⟨fun h1 => ?_, fun h1 => ?_, fun _ => ?_⟩
      · rw [hsu, hsf] at h1; cases h1
      · rw [hact] at h1; cases h1
      · rw [hm]; exact ic ha
    · rcases hc2 with ⟨hall, _, hact, hsu⟩ | ⟨hnot, hrd, hact, hsu⟩
      · refine ⟨fun _ => ⟨hact, hall⟩, fun _ h2 => ?_, fun h1 => ?_⟩
        · rw [hsu] at h2; cases h2
        · rw [hact] at h1; cases h1
      · refine ⟨fun h1 => ?_, fun h1 _ => ⟨?_, hnot⟩, fun _ => hnot⟩
        · rw [hsu, hsf] at h1
          simp at h1
        · rw [hact] at h1
          simp only [decide_eq_false_iff_not] at h1
          rw [hrd]; omega

theorem statusInv_run (s : List Nat) (n : Nat) (w w' : World) (hi : StatusInv w)
    (h : guess_cycles s n w = some w') : StatusInv w' := by
  induction n generalizing w with
  | zero =>
    simp only [guess_cycles, Option.some.injEq] at h
    rw [← h]; exact hi
  | succ k ih =>
    obtain ⟨w1, h1, hk⟩ := guess_cycles_succ_some s k w w' h
    exact ih w1 (statusInv_step s w w1 hi h1) hk

theorem strncpy_eq_self (src : List Nat) (n : Nat) (hl : src.length = n) (hs : strlen src = n) :
    strncpy src n = src := by
  induction n generalizing src with
  | zero =>
    have : src = [] := List.length_eq_zero.mp hl
    subst this
    rfl
  | succ k ih =>
    cases src with
    | nil => simp at hl
    | cons x xs =>
      unfold strlen at hs
      by_cases hx : x = 0
      · simp [hx] at hs
      · simp only [hx, if_false] at hs
        unfold strncpy
        simp only [byteAt_cons_zero, hx, if_false, List.tail_cons]
        rw [ih xs (by simpa using hl) (by omega)]

theorem cstr_eq_self (l : List Nat) (h : strlen l = l.length) : cstr l = l := by
  induction l with
  | nil => rfl
  | cons x xs ih =>
    unfold strlen at h
    by_cases hx : x = 0
    · simp [hx] at h
    · simp only [hx, if_false, List.length_cons] at h
      have hc : cstr (x :: xs) = x :: cstr xs := by simp [cstr, hx]
      rw [hc, ih (by omega)]

/-! ## The properties of the specification -/

/-- C1. Matcher reference definition: for a guess and a secret of 5
characters each, `compare_guess` gives at every position `i` of 0..4 the
outcome `R_GREEN` if `guess[i] == secret[i]`, otherwise `R_YELLOW` if
`guess[i]` occurs at some position of the secret, otherwise `R_RED`. -/
theorem compare_guess_reference (guess secret : List Nat) (w : World)
    (hg : strlen guess = 5) (hs : strlen secret = 5) (i : Fin 5) :
    (compare_guess guess secret w).1 i =
      if byteAt guess i = byteAt secret i then R_GREEN
      else if ∃ j : Fin 5, byteAt secret j = byteAt guess i then R_YELLOW
      else R_RED := by
  rw [compare_guess_fst]
  have hne : byteAt guess i ≠ 0 := byteAt_ne_zero_of_lt_strlen guess i (by omega)
  have hiff : find_in_string (byteAt guess i) secret = true ↔
      ∃ j : Fin 5, byteAt secret j = byteAt guess i := by
    unfold find_in_string
    rw [strchr_isSome_iff]
    constructor
    · rintro ⟨j, hj, hb⟩
      have hj5 : j ≠ strlen secret := by
        intro he
        rw [he, byteAt_strlen] at hb
        exact hne hb.symm
      exact ⟨⟨j, by omega⟩, hb⟩
    · rintro ⟨j, hb⟩
      exact ⟨j, by omega, hb⟩
  by_cases h1 : byteAt guess i = byteAt secret i
  · simp [h1]
  · simp only [h1, if_false]
    by_cases h2 : ∃ j : Fin 5, byteAt secret j = byteAt guess i
    · rw [if_pos (hiff.mpr h2), if_pos h2]
    · rw [if_neg (fun h => h2 (hiff.mp h)), if_neg h2]

/-- C1 at secret "CRANE", guess "TRACE": Absent, ExactMatch, ExactMatch,
PresentElsewhere, ExactMatch. -/
theorem compare_guess_reference_trace :
    strlen (ascii "TRACE") = 5 ∧ strlen (ascii "CRANE") = 5 ∧
    List.ofFn (compare_guess (ascii "TRACE") (ascii "CRANE") (session demoWords [])).1 =
      [R_RED, R_GREEN, R_GREEN, R_YELLOW, R_GREEN] := by
  refine ⟨by decide, by decide, ?_⟩
  rw [funext (compare_guess_reference (ascii "TRACE") (ascii "CRANE") (session demoWords [])
    (by decide) (by decide))]
  decide

/-- C2. In an active session whose 5-letter secret is a word of the
dictionary, a guess equal to the secret is matched `R_GREEN` at all 5
positions, and the guess cycle ends the session as won (`active = false`,
`success = true`) with the round counter unchanged. -/
theorem guess_cycle_wins_on_secret (secret guess rest : List Nat) (w : World)
    (ha : w.active = true) (hs : strlen secret = 5)
    (hd : ∃ i, i < WORDS_CAPACITY ∧ row w.dictionary i = cstr secret)
    (hr : read_input w.stdin = some (guess, rest)) (hg : cstr guess = cstr secret) :
    (∀ v i, (compare_guess guess secret v).1 i = R_GREEN) ∧
    ∃ w', guess_cycle secret w = some w' ∧ game_active w' = false ∧ game_success w' = true ∧
      w'.rounds = w.rounds ∧ ∀ i, w'.matched i = true := by
  obtain ⟨hlen, hb⟩ := cstr_eq_imp guess secret hg
  have hbi : ∀ i : Fin 5, byteAt guess i = byteAt secret i := fun i => hb i (by omega)
  have hv : check_validity guess w.dictionary = VALID_OK := by
    rw [check_validity_ok_iff]
    obtain ⟨i, hi, hrow⟩ := hd
    refine ⟨by omega, i, hi, ?_⟩
    rw [strncmp_five_iff _ _ (by omega)]
    intro k hk
    rw [hrow, byteAt_cstr secret k (by omega)]
    exact (hb k (by omega)).symm
  refine ⟨fun v i => by rw [compare_guess_fst, if_pos (hbi i)], ?_⟩
  obtain ⟨w', h', _, _, hm, hc⟩ := guess_cycle_valid_fields secret guess rest w ha hr hv
  have hall : ∀ j, w'.matched j = true := fun j => by rw [hm]; simp [hbi j]
  rcases hc with ⟨_, hrd, hact, hsu⟩ | ⟨hnot, _⟩
  · exact ⟨w', h', hact, hsu, hrd, hall⟩
  · exact absurd hall hnot

/-- C2 at secret "CRANE", typed guess "CRANE". -/
theorem guess_cycle_wins_on_secret_crane :
    (∀ v i, (compare_guess (ascii "CRANE" ++ [0]) (ascii "CRANE") v).1 i = R_GREEN) ∧
    ∃ w', guess_cycle (ascii "CRANE") (session demoWords (ascii "CRANE\n")) = some w' ∧
      game_active w' = false ∧ game_success w' = true ∧
      w'.rounds = (session demoWords (ascii "CRANE\n")).rounds ∧ ∀ i, w'.matched i = true :=
  guess_cycle_wins_on_secret (ascii "CRANE") (ascii "CRANE" ++ [0]) []
    (session demoWords (ascii "CRANE\n")) rfl (by decide) ⟨0, by decide, by decide⟩
    (by decide) (by decide)

/-- C3, the code at a failing input. Secret "CRANE", the player types "CRAZY"
and then "PLANE", both dictionary words: the second guess cycle sets
`success`, although the guess it processed, "PLANE", is not the secret (the
mask kept positions 0..2 from "CRAZY" and "PLANE" added 3 and 4). -/
theorem success_without_guessing_secret :
    (guess_cycles (ascii "CRANE") 2 (session demoWords (ascii "CRAZY\nPLANE\n"))).map
        (fun w => (game_success w, game_active w, w.rounds)) = some (true, false, 1) ∧
    guesses_read (ascii "CRANE") 2 (session demoWords (ascii "CRAZY\nPLANE\n")) =
      [ascii "CRAZY" ++ [0], ascii "PLANE" ++ [0]] ∧
    cstr (ascii "PLANE" ++ [0]) ≠ cstr (ascii "CRANE") := by
  refine ⟨?_, ?_, by decide⟩
  · set_option maxRecDepth 100000 in rfl
  · set_option maxRecDepth 100000 in rfl

/-- C4, the code at a failing input. From a fresh session, five invalid
guesses in a row ("CRAN" is too short, "ZZZZZ" is not in the dictionary)
bring the round counter to 5, and the session is still active: the two
invalid-guess paths of `guess_cycle` return without the `rounds >= 5` test. -/
theorem five_invalid_guesses_stay_active :
    ∃ w', guess_cycles (ascii "CRANE") 5
        (session demoWords (ascii "CRAN\nZZZZZ\nCRAN\nZZZZZ\nCRAN\n")) = some w' ∧
      w'.rounds = 5 ∧ game_active w' = true ∧ game_success w' = false := by
  have hbad : check_validity (ascii "CRAN" ++ [0]) (tableOf demoWords) ≠ VALID_OK := by
    rw [check_validity_tableOf _ _ (by decide)]; decide
  have hnf : check_validity (ascii "ZZZZZ" ++ [0]) (tableOf demoWords) ≠ VALID_OK := by
    rw [check_validity_tableOf _ _ (by decide)]; decide
  obtain ⟨w', h', hrd, hact, _, hsu, _, _⟩ :=
    guess_cycles_invalid (ascii "CRANE") 5
      (session demoWords (ascii "CRAN\nZZZZZ\nCRAN\nZZZZZ\nCRAN\n"))
      [ascii "CRAN" ++ [0], ascii "ZZZZZ" ++ [0], ascii "CRAN" ++ [0], ascii "ZZZZZ" ++ [0],
        ascii "CRAN" ++ [0]] [] rfl (by decide) (by decide) (by decide)
      (by
        intro g hgm
        rw [show (session demoWords (ascii "CRAN\nZZZZZ\nCRAN\nZZZZZ\nCRAN\n")).dictionary
          = tableOf demoWords from rfl]
        simp only [List.mem_cons, List.mem_singleton, List.not_mem_nil, or_false] at hgm
        rcases hgm with h | h | h | h | h
        · rw [h]; exact hbad
        · rw [h]; exact hnf
        · rw [h]; exact hbad
        · rw [h]; exact hnf
        · rw [h]; exact hbad)
  exact ⟨w', h', by rw [hrd]; rfl, hact, by show w'.success = false; rw [hsu]; rfl⟩

/-- C6. Revealed mask monotonicity: whatever the state, the secret and the
pending input (valid or invalid guesses), a mask position that is true stays
true through any number `n` of guess cycles (one cycle is `n = 1`). -/
theorem matched_monotone (secret : List Nat) (n : Nat) (w w' : World)
    (h : guess_cycles secret n w = some w') (i : Fin 5) (hi : w.matched i = true) :
    w'.matched i = true :=
  guess_cycles_mono secret n w w' h i hi

/-- C6 in a session where position 0 is revealed and "BLIMP" is guessed
against "CRANE": position 0 is still revealed after the cycle. -/
theorem matched_monotone_blimp :
    ∃ w', guess_cycles (ascii "CRANE") 1
        { session demoWords (ascii "BLIMP\n") with matched := fun i => decide (i = 0) } = some w' ∧
      w'.matched 0 = true := by
  cases h : guess_cycles (ascii "CRANE") 1
      { session demoWords (ascii "BLIMP\n") with matched := fun i => decide (i = 0) } with
  | none =>
    have hs : (guess_cycles (ascii "CRANE") 1
      { session demoWords (ascii "BLIMP\n") with matched := fun i => decide (i = 0) }).isSome
        = true := by
      set_option maxRecDepth 100000 in rfl
    rw [h] at hs
    cases hs
  | some w' => exact ⟨w', rfl, matched_monotone (ascii "CRANE") 1 _ w' h 0 rfl⟩

/-- C7. From a fresh session (round counter 0, mask all false, active), five
valid guesses in a row, none of which completes the mask (after each guess
some position has been missed by every guess so far), leave the session active
after each of the first four and lost after the fifth (`active = false`,
`success = false`), with 5 minus the round counter equal to 0. -/
theorem five_valid_misses_lose (secret : List Nat) (w : World) (gs : List (List Nat))
    (rest : List Nat) (hrd : w.rounds = 0) (hm : ∀ i, w.matched i = false)
    (ha : w.active = true) (hsu : w.success = false)
    (hr : read_inputs 5 w.stdin = some (gs, rest))
    (hv : ∀ g ∈ gs, check_validity g w.dictionary = VALID_OK)
    (hmiss : ∀ k, k < 5 → ∃ j : Fin 5, ∀ g ∈ gs.take (k + 1), byteAt g j ≠ byteAt secret j) :
    (∀ k, 1 ≤ k → k ≤ 4 → ∃ wk, guess_cycles secret k w = some wk ∧ game_active wk = true) ∧
    ∃ w5, guess_cycles secret 5 w = some w5 ∧ game_active w5 = false ∧
      game_success w5 = false ∧ 5 - w5.rounds = 0 := by
  have hl := read_inputs_length _ _ _ _ hr
  obtain ⟨j, hj⟩ := hmiss 4 (by omega)
  rw [List.take_of_length_le (by omega)] at hj
  constructor
  · intro k _ hk4
    obtain ⟨r', hr'⟩ := read_inputs_take 5 k _ _ _ hr (by omega)
    obtain ⟨wk, hk, _, hact, _⟩ :=
      guess_cycles_valid_miss secret j k w (gs.take k) r' ha hsu (by rw [hrd]; decide)
        (by rw [hrd]; omega)
        (by rw [hrd]; omega) hr'
        (fun g hg => hv g (List.mem_of_mem_take hg)) (hm j)
        (fun g hg => hj g (List.mem_of_mem_take hg))
    refine ⟨wk, hk, ?_⟩
    show wk.active = true
    rw [hact, hrd]
    simp only [decide_eq_true_eq]
    omega
  · obtain ⟨w5, h5, hrd5, hact, hsu5, _⟩ :=
      guess_cycles_valid_miss secret j 5 w gs rest ha hsu (by rw [hrd]; decide)
        (by rw [hrd]; omega)
        (by rw [hrd]; norm_num) hr hv (hm j) hj
    refine ⟨w5, h5, ?_, hsu5, by rw [hrd5, hrd]; rfl⟩
    show w5.active = false
    rw [hact, hrd]
    rfl

/-- C7 with secret "CRANE" and the guesses CRAZY, TRACE, BLIMP, CRAZY, TRACE,
none of which has 'N' at position 3. -/
theorem five_valid_misses_lose_crane :
    (∀ k, 1 ≤ k → k ≤ 4 → ∃ wk,
      guess_cycles (ascii "CRANE") k
        (session demoWords (ascii "CRAZY\nTRACE\nBLIMP\nCRAZY\nTRACE\n")) = some wk ∧
      game_active wk = true) ∧
    ∃ w5, guess_cycles (ascii "CRANE") 5
        (session demoWords (ascii "CRAZY\nTRACE\nBLIMP\nCRAZY\nTRACE\n")) = some w5 ∧
      game_active w5 = false ∧ game_success w5 = false ∧ 5 - w5.rounds = 0 :=
  five_valid_misses_lose (ascii "CRANE")
    (session demoWords (ascii "CRAZY\nTRACE\nBLIMP\nCRAZY\nTRACE\n"))
    [ascii "CRAZY" ++ [0], ascii "TRACE" ++ [0], ascii "BLIMP" ++ [0], ascii "CRAZY" ++ [0],
      ascii "TRACE" ++ [0]] [] rfl (fun _ => rfl) rfl rfl (by decide)
    (by
      rw [show (session demoWords (ascii "CRAZY\nTRACE\nBLIMP\nCRAZY\nTRACE\n")).dictionary
        = tableOf demoWords from rfl]
      intro g hg
      rw [check_validity_tableOf _ _ (by decide)]
      revert g
      decide)
    (by decide)

/-- C8. Terminal states are final: in a session that is not active (won or
lost), whatever the secret and the pending input, a guess cycle returns the
state as it is: round counter, mask, both flags, the input not yet read and
the output are all unchanged. -/
theorem guess_cycle_terminal_noop (secret : List Nat) (w : World)
    (h : game_active w = false) : guess_cycle secret w = some w :=
  guess_cycle_inactive secret w h

/-- C8 in a won session with the line "PLANE" still pending. -/
theorem guess_cycle_terminal_noop_won :
    guess_cycle (ascii "CRANE")
        { session demoWords (ascii "PLANE\n") with active := false, success := true } =
      some { session demoWords (ascii "PLANE\n") with active := false, success := true } :=
  guess_cycle_terminal_noop (ascii "CRANE")
    { session demoWords (ascii "PLANE\n") with active := false, success := true } rfl

/-- C9. Validation gate, on the table `load_dictionary` leaves (whatever the
file; the loaded words are the first `count` rows): `check_validity` returns
`VALID_BAD_INPUT` exactly when the string's length is not 5, `VALID_NOT_FOUND`
exactly when its length is 5 and it is none of the loaded words, `VALID_OK`
exactly when its length is 5 and it is one of the loaded words. -/
theorem check_validity_gate (file : Option (List Nat)) (input word : List Nat) :
    (check_validity word (load_dictionary file (World.start input)).2.dictionary
        = VALID_BAD_INPUT ↔ strlen word ≠ 5) ∧
    (check_validity word (load_dictionary file (World.start input)).2.dictionary
        = VALID_NOT_FOUND ↔
      strlen word = 5 ∧
      cstr word ∉ (load_dictionary file (World.start input)).2.dictionary.take
        (load_dictionary file (World.start input)).1.toNat) ∧
    (check_validity word (load_dictionary file (World.start input)).2.dictionary
        = VALID_OK ↔
      strlen word = 5 ∧
      cstr word ∈ (load_dictionary file (World.start input)).2.dictionary.take
        (load_dictionary file (World.start input)).1.toNat) := by
  have hok := loaded_valid_iff _ _ (load_dictionary_loaded file input) word
  have hbad := check_validity_bad_iff word
    (load_dictionary file (World.start input)).2.dictionary
  refine ⟨hbad, ?_, hok⟩
  constructor
  · intro hnf
    have h5 : strlen word = 5 := by
      by_contra hne
      rw [hbad.mpr hne] at hnf
      cases hnf
    refine ⟨h5, fun hmem => ?_⟩
    rw [hok.mpr ⟨h5, hmem⟩] at hnf
    cases hnf
  · rintro ⟨h5, hnm⟩
    cases hc : check_validity word (load_dictionary file (World.start input)).2.dictionary with
    | VALID_OK => exact absurd (hok.mp hc).2 hnm
    | VALID_BAD_INPUT => exact absurd h5 (hbad.mp hc)
    | VALID_NOT_FOUND => rfl

/-- C10. The prompt never exposes unmatched letters: after any number of
guess cycles from a state with an all-false mask, the byte the prompt shows at
position `i` of 0..4 is the secret's letter `secret[i]` if some valid guess
read so far in the session had `guess[i] == secret[i]`, and the blank `-`
(byte 45) otherwise; so, the secret's letter not being `-` itself, the letter
is shown if and only if there was such a guess. -/
theorem prompt_shows_only_matched (secret : List Nat) (n : Nat) (w w' : World)
    (h0 : ∀ i, w.matched i = false) (h : guess_cycles secret n w = some w') (i : Fin 5) :
    (byteAt (show_prompt secret w').stdout (w'.stdout.length + i) =
      if ∃ g ∈ guesses_read secret n w,
          check_validity g w.dictionary = VALID_OK ∧ byteAt g i = byteAt secret i
      then byteAt secret i else 45) ∧
    (byteAt secret i ≠ 45 →
      (byteAt (show_prompt secret w').stdout (w'.stdout.length + i) = byteAt secret i ↔
        ∃ g ∈ guesses_read secret n w,
          check_validity g w.dictionary = VALID_OK ∧ byteAt g i = byteAt secret i)) := by
  obtain ⟨_, hm⟩ := guess_cycles_matched secret n w w' h
  have key : byteAt (show_prompt secret w').stdout (w'.stdout.length + i) =
      if ∃ g ∈ guesses_read secret n w,
          check_validity g w.dictionary = VALID_OK ∧ byteAt g i = byteAt secret i
      then byteAt secret i else 45 := by
    rw [show_prompt_eq]
    simp only []
    rw [byteAt_append_mid _ _ _ _ (by simp), byteAt_map_finRange, hm i, h0 i]
    simp only [Bool.false_or, List.any_eq_true, Bool.and_eq_true, decide_eq_true_eq]
  refine ⟨key, fun hne => ?_⟩
  rw [key]
  by_cases hex : ∃ g ∈ guesses_read secret n w,
      check_validity g w.dictionary = VALID_OK ∧ byteAt g i = byteAt secret i
  · simp only [hex, if_true]
  · simp only [hex, if_false, iff_false]
    exact fun he => hne he.symm

/-- C10 after the valid guess "CRAZY" against "CRANE": the prompt shows `CRA--`. -/
theorem prompt_shows_only_matched_crazy :
    ∃ w', guess_cycles (ascii "CRANE") 1 (session demoWords (ascii "CRAZY\n")) = some w' ∧
      (List.finRange 5).map
          (fun i : Fin 5 =>
            byteAt (show_prompt (ascii "CRANE") w').stdout (w'.stdout.length + i.val))
        = ascii "CRA--" := by
  have hg : guesses_read (ascii "CRANE") 1 (session demoWords (ascii "CRAZY\n"))
      = [ascii "CRAZY" ++ [0]] := by
    set_option maxRecDepth 100000 in rfl
  have hv : check_validity (ascii "CRAZY" ++ [0])
      (session demoWords (ascii "CRAZY\n")).dictionary = VALID_OK := by
    rw [show (session demoWords (ascii "CRAZY\n")).dictionary = tableOf demoWords from rfl,
      check_validity_tableOf _ _ (by decide)]
    decide
  cases h : guess_cycles (ascii "CRANE") 1 (session demoWords (ascii "CRAZY\n")) with
  | none =>
    have hs : (guess_cycles (ascii "CRANE") 1 (session demoWords (ascii "CRAZY\n"))).isSome
        = true := by
      set_option maxRecDepth 100000 in rfl
    rw [h] at hs
    cases hs
  | some w' =>
    refine ⟨w', rfl, ?_⟩
    rw [List.map_congr_left (fun i _ => (prompt_shows_only_matched (ascii "CRANE") 1
      (session demoWords (ascii "CRAZY\n")) w' (fun _ => rfl) h i).1)]
    simp only [hg, List.mem_singleton, exists_eq_left, hv, true_and]
    decide

/-- C11, the code at a failing input. The file has three lines: "CRANE", a
line of 36 characters (31 times `a`, then "HELLO") and "PLANE"; its lines of
exactly 5 characters are "CRANE" and "PLANE". `load_dictionary` returns 3 and
retains "CRANE", "HELLO", "PLANE": `fgets` with the 32-byte buffer cuts the
long line after 31 bytes and the rest, "HELLO", is taken for a line. -/
theorem load_dictionary_splits_long_line :
    spec_lines longLineFile =
      [ascii "CRANE", List.replicate 31 97 ++ ascii "HELLO", ascii "PLANE"] ∧
    spec_retained longLineFile = [ascii "CRANE", ascii "PLANE"] ∧
    (load_dictionary (some longLineFile) (World.start [])).1 = 3 ∧
    (load_dictionary (some longLineFile) (World.start [])).2.dictionary.take 3 =
      [ascii "CRANE", ascii "HELLO", ascii "PLANE"] ∧
    (load_dictionary (some longLineFile) (World.start [])).2.dictionary.take
        (load_dictionary (some longLineFile) (World.start [])).1.toNat
      ≠ spec_retained longLineFile := by
  have h1 : spec_lines longLineFile =
      [ascii "CRANE", List.replicate 31 97 ++ ascii "HELLO", ascii "PLANE"] := by
    set_option maxRecDepth 100000 in rfl
  have h2 : spec_retained longLineFile = [ascii "CRANE", ascii "PLANE"] := by
    unfold spec_retained
    rw [h1]
    decide
  have h3 : (load_dictionary (some longLineFile) (World.start [])).1 = 3 := by
    set_option maxRecDepth 100000 in rfl
  have h4 : (load_dictionary (some longLineFile) (World.start [])).2.dictionary.take 3 =
      [ascii "CRANE", ascii "HELLO", ascii "PLANE"] := by
    set_option maxRecDepth 100000 in rfl
  refine ⟨h1, h2, h3, h4, ?_⟩
  rw [h3, h2]
  show (load_dictionary (some longLineFile) (World.start [])).2.dictionary.take 3 ≠ _
  rw [h4]
  decide

/-- C12. Non-frequency-limited matching: there are a 5-letter secret in which
a letter occurs exactly once and a 5-letter guess with that letter at two
different positions, neither of them the letter's position in the secret,
such that `compare_guess` marks every position where the guess has the letter
away from the secret's one `R_YELLOW` (secret "PLANE", guess "APPLE", letter
'P' = 80 at guess positions 1 and 2). -/
theorem duplicate_letter_marked_twice :
    ∃ (secret guess : List Nat) (c : Nat) (i j : Fin 5),
      strlen secret = 5 ∧ strlen guess = 5 ∧ (cstr secret).count c = 1 ∧
      i ≠ j ∧ byteAt guess i = c ∧ byteAt guess j = c ∧
      byteAt secret i ≠ c ∧ byteAt secret j ≠ c ∧
      ∀ (w : World) (k : Fin 5), byteAt guess k = c → byteAt secret k ≠ c →
        (compare_guess guess secret w).1 k = R_YELLOW := by
  refine ⟨ascii "PLANE", ascii "APPLE", 80, 1, 2, by decide, by decide, by decide, by decide,
    by decide, by decide, by decide, by decide, ?_⟩
  intro w k
  rw [compare_guess_fst]
  revert k
  decide

/-- C14, the code at a failing input. From a fresh session, six guesses of
the wrong length in a row leave the session active with the round counter at
6, past the limit 5, and the next prompt shows -1 guesses left: the
invalid-guess paths of `guess_cycle` count the round but skip the
`rounds >= 5` test. -/
theorem active_past_round_limit :
    ∃ w', guess_cycles (ascii "CRANE") 6
        (session demoWords (ascii "CRAN\nCRAN\nCRAN\nCRAN\nCRAN\nCRAN\n")) = some w' ∧
      game_active w' = true ∧ w'.rounds = 6 ∧ 5 - w'.rounds = -1 ∧
      (show_prompt (ascii "CRANE") w').stdout = w'.stdout ++ ascii "-----\n\n-1> " := by
  obtain ⟨w', h', hrd, hact, hm, _⟩ :=
    guess_cycles_invalid (ascii "CRANE") 6
      (session demoWords (ascii "CRAN\nCRAN\nCRAN\nCRAN\nCRAN\nCRAN\n"))
      (List.replicate 6 (ascii "CRAN" ++ [0])) [] rfl (by decide) (by decide) (by decide)
      (by
        intro g hg
        rw [List.eq_of_mem_replicate hg,
          show (session demoWords (ascii "CRAN\nCRAN\nCRAN\nCRAN\nCRAN\nCRAN\n")).dictionary
            = tableOf demoWords from rfl,
          check_validity_tableOf _ _ (by decide)]
        decide)
  have hrd6 : w'.rounds = 6 := by rw [hrd]; rfl
  refine ⟨w', h', hact, hrd6, by rw [hrd6]; rfl, ?_⟩
  rw [show_prompt_eq]
  simp only [hm, hrd6, List.append_assoc]
  congr 1

/-- C15. Status well-formedness: in every state reached from a fresh session
(active, not won, mask all false) by any number of guess cycles, (a) `success`
implies not active and all 5 mask positions true; (b) not active and not
`success` implies the round counter is at least 5 and the mask is not fully
true; (c) active implies the mask is not fully true; and `active` and
`success` are never both true. -/
theorem status_well_formed (secret : List Nat) (n : Nat) (w w' : World)
    (ha : w.active = true) (hs : w.success = false) (hm : ∀ i, w.matched i = false)
    (h : guess_cycles secret n w = some w') :
    (game_success w' = true → game_active w' = false ∧ ∀ i, w'.matched i = true) ∧
    (game_active w' = false → game_success w' = false →
      w'.rounds ≥ 5 ∧ ¬ ∀ i, w'.matched i = true) ∧
    (game_active w' = true → ¬ ∀ i, w'.matched i = true) ∧
    ¬ (game_active w' = true ∧ game_success w' = true) := by
  obtain ⟨ia, ib, ic⟩ := statusInv_run secret n w w' (statusInv_start w ha hs hm) h
  refine ⟨ia, ib, ic, fun ⟨h1, h2⟩ => ?_⟩
  have := (ia h2).1
  change w'.active = true at h1
  rw [h1] at this
  cases this

/-- C15 after the guesses "CRAZY" and "PLANE" against "CRANE": won, not
active, mask full. -/
theorem status_well_formed_won :
    ∃ w', guess_cycles (ascii "CRANE") 2 (session demoWords (ascii "CRAZY\nPLANE\n")) = some w' ∧
      game_success w' = true ∧ game_active w' = false ∧ ∀ i, w'.matched i = true := by
  cases h : guess_cycles (ascii "CRANE") 2 (session demoWords (ascii "CRAZY\nPLANE\n")) with
  | none =>
    have hs : (guess_cycles (ascii "CRANE") 2
        (session demoWords (ascii "CRAZY\nPLANE\n"))).isSome = true := by
      set_option maxRecDepth 100000 in rfl
    rw [h] at hs
    cases hs
  | some w' =>
    have hsu : (guess_cycles (ascii "CRANE") 2
        (session demoWords (ascii "CRAZY\nPLANE\n"))).map game_success = some true := by
      set_option maxRecDepth 100000 in rfl
    rw [h] at hsu
    have hsu' : game_success w' = true := by simpa using hsu
    obtain ⟨ia, _⟩ := status_well_formed (ascii "CRANE") 2
      (session demoWords (ascii "CRAZY\nPLANE\n")) w' rfl rfl (fun _ => rfl) h
    exact ⟨w', rfl, hsu', (ia hsu').1, (ia hsu').2⟩

/-- C16. The chosen secret is always guessable: when `load_dictionary`
returned a count `n` of at least 1 (it is at most 2272), then for every value
`r` of `rand()` the index `r % n` that `select_word(n)` reads is in bounds
(`0 <= r % n < n`), the word returned is the row at that index, one of the `n`
loaded words, of exactly 5 non-NUL characters, and `check_validity` on it
gives `VALID_OK`. -/
theorem select_word_guessable (file : Option (List Nat)) (input : List Nat) (r : Nat)
    (count : Int) (w : World)
    (hl : load_dictionary file (World.start input) = (count, w)) (h1 : 1 ≤ count) :
    count ≤ 2272 ∧ 0 ≤ Int.tmod r count ∧ Int.tmod r count < count ∧
    select_word count r w = row w.dictionary (Int.tmod r count).toNat ∧
    select_word count r w ∈ w.dictionary.take count.toNat ∧
    (select_word count r w).length = 5 ∧ strlen (select_word count r w) = 5 ∧
    check_validity (select_word count r w) w.dictionary = VALID_OK := by
  have hL := load_dictionary_loaded file input
  rw [hl] at hL
  simp only [] at hL
  have hL' := hL
  obtain ⟨hlen, hle, hrows, _⟩ := hL
  have hnn : 0 ≤ Int.tmod r count := Int.tmod_nonneg count (Int.ofNat_nonneg r)
  have hlt : Int.tmod r count < count := Int.tmod_lt_of_pos _ (by omega)
  have hidx : (Int.tmod r count).toNat < count.toNat := by omega
  obtain ⟨hrl, hrs⟩ := hrows _ hidx
  have hsel : select_word count r w = row w.dictionary (Int.tmod r count).toNat := by
    unfold select_word
    exact strncpy_eq_self _ 5 hrl hrs
  have hcap : count ≤ 2272 := by
    have : count.toNat ≤ 2272 := hle
    omega
  have hmem : row w.dictionary (Int.tmod r count).toNat ∈ w.dictionary.take count.toNat := by
    rw [List.mem_take_iff_getElem]
    have hil : (Int.tmod r count).toNat < w.dictionary.length := by
      rw [hlen]; exact Nat.lt_of_lt_of_le hidx hle
    exact ⟨_, by rw [hlen]; simp only [WORDS_CAPACITY] at hle ⊢; omega,
      (row_of_lt w.dictionary _ hil).symm⟩
  refine ⟨hcap, hnn, hlt, hsel, by rw [hsel]; exact hmem, by rw [hsel]; exact hrl,
    by rw [hsel]; exact hrs, ?_⟩
  rw [hsel, loaded_valid_iff _ _ hL']
  refine ⟨hrs, ?_⟩
  rw [cstr_eq_self _ (by rw [hrs, hrl])]
  exact hmem

/-- C16 on the word file of the examples with `rand()` returning 7: index
`7 % 5 = 2`, the word "PLANE". -/
theorem select_word_guessable_demo :
    (5 : Int) ≤ 2272 ∧ 0 ≤ Int.tmod (7 : Nat) 5 ∧ Int.tmod (7 : Nat) 5 < 5 ∧
    select_word 5 7 (session demoWords []) = ascii "PLANE" ∧
    check_validity (select_word 5 7 (session demoWords [])) (session demoWords []).dictionary
      = VALID_OK := by
  obtain ⟨h1, h2, h3, h4, _, _, _, h8⟩ :=
    select_word_guessable (some demoFile) [] 7 5 (session demoWords []) (load_demoFile [])
      (by decide)
  refine ⟨h1, h2, h3, ?_, h8⟩
  rw [h4]
  decide

end Wordle
